import Mathlib

/-!
Verification development for the `jagl` client-side grid widget.

The definitions below are shallow embeddings of the JavaScript sources:
* `src/src/core/Renderer.js` — header layout (`_calculateHeaderStructure`),
  row reconciliation (`reconcile`), HTML escaping (`escapeHTML`), and the
  date-formatting pipeline inside `render`;
* `DataStore.js` — `setData` and `sortData`;
* `DateFunctions.js` — `formatDate`.

JavaScript strings are modelled as Lean `String`s (lists of characters),
JavaScript values by the inductive `JSV`, records (plain objects) by
association lists with unique keys, and DOM row collections by lists.
`Array.prototype.sort` (required by EcmaScript to be a stable sort) is
modelled by a structurally recursive stable sort.
-/

namespace Jagl

/-- JavaScript primitive values as they appear in grid records.
`vundefined` is `undefined` (e.g. a missing property), `vnull` is `null`. -/
inductive JSV : Type where
  | vundefined
  | vnull
  | vbool (b : Bool)
  | vnum (n : Int)
  | vstr (s : String)
deriving DecidableEq, Repr

/-- String coercion applied by `rowKey += rowData[k]` and `String(v)`. -/
def jsToString : JSV → String
  | .vundefined => "undefined"
  | .vnull => "null"
  | .vbool b => if b then "true" else "false"
  | .vnum n => toString n
  | .vstr s => s

/-- A data record: a plain JS object, modelled as an association list
with pairwise distinct field names. -/
abbrev Record : Type := List (String × JSV)

/-- Property read `rowData[k]`: a missing property yields `undefined`. -/
def jsGet (r : Record) (k : String) : JSV :=
  match r.find? (fun p => p.1 == k) with
  | some p => p.2
  | none => .vundefined

/-! ## `Renderer.escapeHTML` (Renderer.js lines 558-570) -/

/-- The per-character replacement table of
`text.replace(/[&<>"']/g, (m) => map[m])`.  Each regex match is a single
character, so the whole replacement is character-by-character. -/
def escapeChar (c : Char) : List Char :=
  if c = '&' then "&amp;".data
  else if c = '<' then "&lt;".data
  else if c = '>' then "&gt;".data
  else if c = '"' then "&quot;".data
  else if c = '\'' then "&#039;".data
  else [c]

/-- Escaping of string content, character list level. -/
def escapeChars (l : List Char) : List Char :=
  l.flatMap escapeChar

/-- `Renderer.escapeHTML`: non-strings are returned unchanged, strings are
escaped via the replacement table. -/
def escapeHTML : JSV → JSV
  | .vstr s => .vstr (String.mk (escapeChars s.data))
  | v => v

/-- The five entity tails that may legitimately follow `&` in escaped output. -/
def entityTails : List (List Char) :=
  ["amp;".data, "lt;".data, "gt;".data, "quot;".data, "#039;".data]

/-- Every `&` in the list is the start of one of the five produced entities. -/
def ampersandsOk : List Char → Bool
  | [] => true
  | c :: rest =>
      (if c = '&' then entityTails.any (fun t => t.isPrefixOf rest) else true)
      && ampersandsOk rest

/-- No raw special character: none of `< > " '` occurs, and every `&` starts
an entity. -/
def noRawSpecials (l : List Char) : Bool :=
  l.all (fun c => !(c = '<' || c = '>' || c = '"' || c = '\'')) && ampersandsOk l

/-! ## `DataStore.setData` (DataStore.js lines 26-38) -/

/-- JS property write `element[k] = v`: overwrites an existing field in
place, otherwise appends a new field. -/
def setField (r : Record) (k : String) (v : JSV) : Record :=
  match r with
  | [] => [(k, v)]
  | (k', v') :: rest => if k' == k then (k, v) :: rest else (k', v') :: setField rest k v

/-- Configuration bit consumed by `DataStore.setData`. -/
structure DSConfig : Type where
  addSerialColumn : Bool

/-- State of the store after `setData`. -/
structure DataStoreState : Type where
  originalData : List Record
  viewData : List Record

/-- The `forEach` of `setData`: `element['sno'] = index + 1` on each record. -/
def addSno : List Record → Nat → List Record
  | [], _ => []
  | r :: rest, i => setField r "sno" (.vnum (Int.ofNat (i + 1))) :: addSno rest (i + 1)

/-- `DataStore.setData(dataSource)`.  `[...dataSource]` copies the array but
shares the record objects, so the `sno` writes mutate the caller's records.
Returns the new store state together with the contents of the caller's
array after the call (same objects, same order). -/
def setData (cfg : DSConfig) (dataSource : List Record) : DataStoreState × List Record :=
  let dataToStore :=
    if cfg.addSerialColumn && decide (0 < dataSource.length) then addSno dataSource 0
    else dataSource
  (⟨dataToStore, dataToStore⟩, dataToStore)

end Jagl

namespace Jagl

/-! ### Lemmas for C7 (escapeHTML safety) -/

theorem escapeChar_no_specials (c : Char) :
    ∀ d ∈ escapeChar c, !(d = '<' || d = '>' || d = '"' || d = '\'') := by
  unfold escapeChar
  by_cases h1 : c = '&'
  · simp [h1]
  by_cases h2 : c = '<'
  · simp [h1, h2]
  by_cases h3 : c = '>'
  · simp [h1, h2, h3]
  by_cases h4 : c = '"'
  · simp [h1, h2, h3, h4]
  by_cases h5 : c = '\''
  · simp [h1, h2, h3, h4, h5]
  · simp only [if_neg h1, if_neg h2, if_neg h3, if_neg h4, if_neg h5]
    intro d hd
    simp only [List.mem_singleton] at hd
    subst hd
    simp [h2, h3, h4, h5]

theorem ampersandsOk_append_of (c : Char) (rest : List Char)
    (h : ampersandsOk rest = true) : ampersandsOk (escapeChar c ++ rest) = true := by
  unfold escapeChar
  by_cases h1 : c = '&'
  · simp only [h1, if_pos rfl]
    simp [ampersandsOk, entityTails, h, List.isPrefixOf]
  by_cases h2 : c = '<'
  · simp only [h1, if_neg h1, h2, if_pos rfl]
    simp [ampersandsOk, entityTails, h, List.isPrefixOf]
  by_cases h3 : c = '>'
  · simp only [h1, if_neg h1, h2, if_neg h2, h3, if_pos rfl]
    simp [ampersandsOk, entityTails, h, List.isPrefixOf]
  by_cases h4 : c = '"'
  · simp only [if_neg h1, if_neg h2, if_neg h3, h4, if_pos rfl]
    simp [ampersandsOk, entityTails, h, List.isPrefixOf]
  by_cases h5 : c = '\''
  · simp only [if_neg h1, if_neg h2, if_neg h3, if_neg h4, h5, if_pos rfl]
    simp [ampersandsOk, entityTails, h, List.isPrefixOf]
  · simp only [if_neg h1, if_neg h2, if_neg h3, if_neg h4, if_neg h5]
    simp [ampersandsOk, h1, h]

theorem noRawSpecials_escapeChars (l : List Char) : noRawSpecials (escapeChars l) = true := by
  unfold noRawSpecials
  rw [Bool.and_eq_true]
  constructor
  · rw [List.all_eq_true]
    intro d hd
    induction l with
    | nil => simp [escapeChars] at hd
    | cons c rest ih =>
        simp only [escapeChars, List.flatMap_cons, List.mem_append] at hd
        rcases hd with hd | hd
        · exact escapeChar_no_specials c d hd
        · exact ih (by simpa [escapeChars] using hd)
  · induction l with
    | nil => simp [escapeChars, ampersandsOk]
    | cons c rest ih =>
        simp only [escapeChars, List.flatMap_cons]
        exact ampersandsOk_append_of c _ (by simpa [escapeChars] using ih)

/-- C7: for every string input, `escapeHTML` yields output with no raw
unescaped occurrence of any of the five special characters `& < > " '`
(no `< > " '` at all, and every `&` begins one of the five produced
entities), and for every non-string input, `escapeHTML` returns the value
unchanged. -/
theorem claimC7_escapeHTML_safe :
    (∀ s : String, ∃ t : String,
      escapeHTML (.vstr s) = .vstr t ∧ noRawSpecials t.data = true) ∧
    (∀ v : JSV, (∀ s, v ≠ .vstr s) → escapeHTML v = v) := by
  constructor
  · intro s
    exact ⟨String.mk (escapeChars s.data), rfl, noRawSpecials_escapeChars s.data⟩
  · intro v hv
    cases v with
    | vstr s => exact absurd rfl (hv s)
    | vundefined => rfl
    | vnull => rfl
    | vbool b => rfl
    | vnum n => rfl

/-- Witness for C7: the non-string pass-through applied at the value `3`. -/
theorem claimC7_escapeHTML_safe_witness : escapeHTML (.vnum 3) = .vnum 3 :=
  claimC7_escapeHTML_safe.2 (.vnum 3) (fun _ h => JSV.noConfusion h)

/-! ### Lemmas for C10 (setData and record mutation) -/

theorem jsGet_setField_self (r : Record) (k : String) (v : JSV) :
    jsGet (setField r k v) k = v := by
  induction r with
  | nil => simp [setField, jsGet, List.find?]
  | cons p rest ih =>
      obtain ⟨k', v'⟩ := p
      by_cases h : k' = k
      · simp [setField, h, jsGet, List.find?]
      · have hb : (k' == k) = false := by simpa using h
        simp only [setField, hb, Bool.false_eq_true, if_false]
        simpa [jsGet, List.find?, hb] using ih

theorem jsGet_setField_ne (r : Record) (k k0 : String) (v : JSV) (h : k ≠ k0) :
    jsGet (setField r k0 v) k = jsGet r k := by
  induction r with
  | nil =>
      have hb : (k0 == k) = false := by simpa using (Ne.symm h)
      simp [setField, jsGet, List.find?, hb]
  | cons p rest ih =>
      obtain ⟨k', v'⟩ := p
      by_cases hk : k' = k0
      · have hb : (k' == k0) = true := by simpa using hk
        have hkk : (k0 == k) = false := by simpa using (Ne.symm h)
        have hkk' : (k' == k) = false := by simpa [hk] using (Ne.symm h)
        simp [setField, hb, jsGet, List.find?, hkk, hkk']
      · have hb : (k' == k0) = false := by simpa using hk
        simp only [setField, hb, Bool.false_eq_true, if_false]
        by_cases hkx : k' = k
        · simp [jsGet, List.find?, hkx]
        · have hbx : (k' == k) = false := by simpa using hkx
          simpa [jsGet, List.find?, hbx] using ih

theorem addSno_length (l : List Record) (s : Nat) : (addSno l s).length = l.length := by
  induction l generalizing s with
  | nil => rfl
  | cons r rest ih => simp [addSno, ih]

theorem addSno_getElem (l : List Record) (s i : Nat) :
    (addSno l s)[i]? = l[i]?.map (fun r => setField r "sno" (.vnum (Int.ofNat (s + i + 1)))) := by
  induction l generalizing s i with
  | nil => simp [addSno]
  | cons r rest ih =>
      cases i with
      | zero => simp [addSno]
      | succ j =>
          simp only [addSno, List.getElem?_cons_succ]
          rw [ih (s + 1) j]
          have : s + 1 + j + 1 = s + (j + 1) + 1 := by omega
          rw [this]

/-- C10 (corrected claim): `setData` copies the array but not the record
objects; without `addSerialColumn` the caller's records are untouched,
while with `addSerialColumn` on nonempty data the field `sno := i + 1` is
written into the caller's `i`-th record object (all other fields keep their
values), and the store's `originalData`/`viewData` alias the same records. -/
theorem claimC10_setData_mutation (cfg : DSConfig) (ds : List Record) :
    (cfg.addSerialColumn = false → setData cfg ds = (⟨ds, ds⟩, ds)) ∧
    ((setData cfg ds).1.originalData = (setData cfg ds).2 ∧
     (setData cfg ds).1.viewData = (setData cfg ds).2) ∧
    (cfg.addSerialColumn = true → 0 < ds.length →
      (setData cfg ds).2.length = ds.length ∧
      (∀ i r, ds[i]? = some r →
        (setData cfg ds).2[i]? = some (setField r "sno" (.vnum (Int.ofNat (i + 1)))) ∧
        jsGet (setField r "sno" (.vnum (Int.ofNat (i + 1)))) "sno" = .vnum (Int.ofNat (i + 1)) ∧
        ∀ k, k ≠ "sno" → jsGet (setField r "sno" (.vnum (Int.ofNat (i + 1)))) k = jsGet r k)) := by
  refine ⟨?_, ⟨rfl, rfl⟩, ?_⟩
  · intro h
    simp [setData, h]
  · intro h hl
    have hcond : (cfg.addSerialColumn && decide (0 < ds.length)) = true := by
      simp [h, hl]
    constructor
    · simp only [setData, hcond, if_pos rfl]
      exact addSno_length ds 0
    · intro i r hr
      refine ⟨?_, jsGet_setField_self r "sno" _, fun k hk => jsGet_setField_ne r k "sno" _ hk⟩
      simp only [setData, hcond, if_pos rfl, if_true]
      rw [addSno_getElem ds 0 i, hr]
      simp

/-- Counterexample for C10 as stated: with `addSerialColumn` enabled,
`setData` mutates the caller's record object — the record `{id: 1}` becomes
`{id: 1, sno: 1}` after the call. -/
theorem claimC10_counterexample :
    (setData ⟨true⟩ [[("id", JSV.vnum 1)]]).2 ≠ [[("id", JSV.vnum 1)]] ∧
    (setData ⟨true⟩ [[("id", JSV.vnum 1)]]).2 = [[("id", JSV.vnum 1), ("sno", JSV.vnum 1)]] := by
  constructor
  · decide
  · decide

/-- Witness for C10: the amended theorem applied to the concrete input
`{id: 1}` with `addSerialColumn` enabled. -/
theorem claimC10_setData_mutation_witness :
    (setData ⟨true⟩ [[("id", JSV.vnum 1)]]).2.length = 1 := by
  have h := (claimC10_setData_mutation ⟨true⟩ [[("id", JSV.vnum 1)]]).2.2 rfl (by decide)
  simpa using h.1

/-! ## A stable sort, modelling `Array.prototype.sort(comparator)`

EcmaScript requires `Array.prototype.sort` to be stable.  We model it by a
structurally recursive stable insertion sort: an element is placed before
the first element `y` of the already-sorted suffix with `comparator(x,y) <= 0`.
For a consistent comparator this is the unique stable sort order. -/

/-- Stable insertion of `x`: before the first `y` with `le x y`. -/
def jsInsert (le : α → α → Bool) (x : α) : List α → List α
  | [] => [x]
  | y :: ys => if le x y then x :: y :: ys else y :: jsInsert le x ys

/-- Stable sort by the boolean relation `le a b = (comparator a b <= 0)`. -/
def jsStableSort (le : α → α → Bool) : List α → List α
  | [] => []
  | x :: xs => jsInsert le x (jsStableSort le xs)

theorem jsInsert_perm (le : α → α → Bool) (x : α) (l : List α) :
    (jsInsert le x l).Perm (x :: l) := by
  induction l with
  | nil => exact List.Perm.refl _
  | cons y ys ih =>
      by_cases h : le x y = true
      · simp [jsInsert, h]
      · simp only [jsInsert, h, if_false, Bool.false_eq_true]
        exact ((ih.cons y).trans (List.Perm.swap x y ys))

theorem jsStableSort_perm (le : α → α → Bool) (l : List α) :
    (jsStableSort le l).Perm l := by
  induction l with
  | nil => exact List.Perm.refl _
  | cons x xs ih =>
      exact (jsInsert_perm le x (jsStableSort le xs)).trans (ih.cons x)

theorem mem_jsInsert (le : α → α → Bool) (x z : α) (l : List α)
    (h : z ∈ jsInsert le x l) : z = x ∨ z ∈ l := by
  have := (jsInsert_perm le x l).subset h
  simpa using this

/-- Sorting a list that is already pairwise ordered by `le` returns it
unchanged (stability on sorted inputs). -/
theorem jsStableSort_of_pairwise (le : α → α → Bool) (l : List α)
    (h : l.Pairwise (fun a b => le a b = true)) : jsStableSort le l = l := by
  induction l with
  | nil => rfl
  | cons x xs ih =>
      have hx : ∀ z ∈ xs, le x z = true := fun z hz => (List.pairwise_cons.1 h).1 z hz
      have hxs : jsStableSort le xs = xs := ih (List.pairwise_cons.1 h).2
      rw [jsStableSort, hxs]
      cases xs with
      | nil => rfl
      | cons y ys => simp [jsInsert, hx y (by simp)]

theorem jsInsert_pairwise {R : α → α → Prop} (le : α → α → Bool)
    (htrans : ∀ a b c, R a b → R b c → R a c)
    (hF1 : ∀ a b, le a b = true → R a b)
    (hF2 : ∀ a b, le a b = false → R b a)
    (x : α) (l : List α) (hl : l.Pairwise R) :
    (jsInsert le x l).Pairwise R := by
  induction l with
  | nil => exact List.pairwise_singleton R x
  | cons y ys ih =>
      rcases List.pairwise_cons.1 hl with ⟨hy, hys⟩
      by_cases h : le x y = true
      · rw [jsInsert, if_pos h]
        refine List.pairwise_cons.2 ⟨?_, hl⟩
        intro z hz
        rcases List.mem_cons.1 hz with hz | hz
        · exact hz ▸ hF1 x y h
        · exact htrans x y z (hF1 x y h) (hy z hz)
      · rw [jsInsert, if_neg h]
        refine List.pairwise_cons.2 ⟨?_, ih hys⟩
        intro z hz
        rcases mem_jsInsert le x z ys hz with hz | hz
        · exact hz ▸ hF2 x y (Bool.not_eq_true _ ▸ h)
        · exact hy z hz

theorem jsStableSort_pairwise {R : α → α → Prop} (le : α → α → Bool)
    (htrans : ∀ a b c, R a b → R b c → R a c)
    (hF1 : ∀ a b, le a b = true → R a b)
    (hF2 : ∀ a b, le a b = false → R b a)
    (l : List α) : (jsStableSort le l).Pairwise R := by
  induction l with
  | nil => simp [jsStableSort]
  | cons x xs ih => exact jsInsert_pairwise le htrans hF1 hF2 x _ ih

/-! ## `DataStore.sortData` (DataStore.js lines 81-138)

The `normalize` helper consults `Date.parse` / `new Date(..).getTime()` and
`Number(..)` / `isNaN(..)`, whose exact behaviour is host-defined for exotic
inputs.  They are supplied as oracles: `dateParse v` is `some t` exactly when
`v instanceof Date || !isNaN(Date.parse(v))` with resulting time `t`, and
`numParse v` is `some n` exactly when `!isNaN(v) && v !== ""` with numeric
value `n`.  (The `cache` map in the source only memoizes the pure `normalize`
and is semantically transparent.)  `localeCompare(..., {sensitivity: "base"})`
is modelled as code-point comparison, adequate for the ASCII data here. -/

structure SortOracles : Type where
  dateParse : JSV → Option Int
  numParse : JSV → Option Int

/-- A normalized sort value: a number or a lower-cased string. -/
inductive NVal : Type where
  | nnum (t : Int)
  | nstr (s : String)
deriving DecidableEq, Repr

/-- `String.prototype.toLowerCase`, ASCII model. -/
def toLowerString (s : String) : String :=
  String.mk (s.data.map Char.toLower)

/-- `String(..)` applied to a normalized value. -/
def nvalString : NVal → String
  | .nnum n => toString n
  | .nstr s => s

/-- The `normalize` closure of `sortData`: `null`/`undefined` stay null;
date-parseable values become timestamps; booleans become 0/1; numeric
values become numbers; everything else becomes a lower-cased string. -/
def normalize (O : SortOracles) (v : JSV) : Option NVal :=
  match v with
  | .vundefined => none
  | .vnull => none
  | v =>
      match O.dateParse v with
      | some t => some (.nnum t)
      | none =>
          match v with
          | .vbool b => some (.nnum (if b then 1 else 0))
          | v =>
              match O.numParse v with
              | some n => some (.nnum n)
              | none => some (.nstr (toLowerString (jsToString v)))

/-- Code-point string comparison returning -1/0/1 (`localeCompare` model). -/
def strcmpChars : List Char → List Char → Int
  | [], [] => 0
  | [], _ :: _ => -1
  | _ :: _, [] => 1
  | a :: as, b :: bs => if a < b then -1 else if b < a then 1 else strcmpChars as bs

def strcmp (a b : String) : Int := strcmpChars a.data b.data

/-- The comparator passed to `this.viewData.sort(...)`. -/
def cmpRec (O : SortOracles) (key : String) (dir : Int) (a b : Record) : Int :=
  let valA := normalize O (jsGet a key)
  let valB := normalize O (jsGet b key)
  if valA = valB then 0
  else if valA = none then 1 * dir
  else if valB = none then -1 * dir
  else
    match valA, valB with
    | some (.nnum x), some (.nnum y) => (x - y) * dir
    | some va, some vb => strcmp (nvalString va) (nvalString vb) * dir
    | _, _ => 0

/-- `DataStore.sortData(key, order)` acting on `viewData`. -/
def sortData (O : SortOracles) (key : String) (order : String)
    (viewData : List Record) : List Record :=
  let dir : Int := if order == "asc" then 1 else -1
  jsStableSort (fun a b => decide (cmpRec O key dir a b ≤ 0)) viewData

/-- The record's sort value for `key` is `null` or `undefined`. -/
def nullish (v : JSV) : Prop := v = .vnull ∨ v = .vundefined

theorem normalize_eq_none_iff (O : SortOracles) (v : JSV) :
    normalize O v = none ↔ nullish v := by
  cases v with
  | vundefined => simp [normalize, nullish]
  | vnull => simp [normalize, nullish]
  | vbool b =>
      simp only [normalize, nullish]
      cases h : O.dateParse (.vbool b) <;> simp
  | vnum n =>
      simp only [normalize, nullish]
      cases h : O.dateParse (.vnum n)
      · cases h2 : O.numParse (.vnum n) <;> simp
      · simp
  | vstr s =>
      simp only [normalize, nullish]
      cases h : O.dateParse (.vstr s)
      · cases h2 : O.numParse (.vstr s) <;> simp
      · simp

theorem cmpRec_null_left (O : SortOracles) (key : String) (dir : Int) (a b : Record)
    (ha : normalize O (jsGet a key) = none) (hb : normalize O (jsGet b key) ≠ none) :
    cmpRec O key dir a b = 1 * dir := by
  unfold cmpRec
  rw [if_neg (by rw [ha]; exact fun h => hb h.symm), if_pos ha]

theorem cmpRec_null_right (O : SortOracles) (key : String) (dir : Int) (a b : Record)
    (ha : normalize O (jsGet a key) ≠ none) (hb : normalize O (jsGet b key) = none) :
    cmpRec O key dir a b = -1 * dir := by
  unfold cmpRec
  rw [if_neg (by rw [hb]; exact ha), if_neg ha, if_pos hb]

/-- Oracles for the concrete sorting example: none of `"a"`, `"b"`, `null`
date-parses (`Date.parse` is `NaN` on them), and only numbers are numeric. -/
def sortOracleEx : SortOracles :=
  ⟨fun _ => none, fun v => match v with | .vnum n => some n | _ => none⟩

/-- A one-field record `{n: v}`. -/
def recN (v : JSV) : Record := [("n", v)]

/-- C5 (amended): `sortData` multiplies the null-comparison result by the
sort direction, so records whose value for the key is `null`/`undefined`
come after all non-null records in ascending order, but before all
non-null records in descending order; in particular sorting
`[{n:"b"},{n:"a"},{n:null}]` by `n` ascending yields
`[{n:"a"},{n:"b"},{n:null}]`. -/
theorem claimC5_sortData_null_direction (O : SortOracles) (key : String)
    (data : List Record) (order : String) :
    ((order = "asc" →
      (sortData O key order data).Pairwise
        (fun a b => nullish (jsGet a key) → nullish (jsGet b key))) ∧
     (order ≠ "asc" →
      (sortData O key order data).Pairwise
        (fun a b => nullish (jsGet b key) → nullish (jsGet a key)))) ∧
    sortData sortOracleEx "n" "asc"
        [recN (.vstr "b"), recN (.vstr "a"), recN .vnull]
      = [recN (.vstr "a"), recN (.vstr "b"), recN .vnull] := by
  constructor
  · constructor
    · intro hord
      have hbeq : (order == "asc") = true := by simpa using hord
      have hsd : sortData O key order data
          = jsStableSort (fun a b => decide (cmpRec O key 1 a b ≤ 0)) data := by
        unfold sortData
        rw [hbeq]
        rfl
      rw [hsd]
      refine jsStableSort_pairwise _ (fun a b c hab hbc ha => hbc (hab ha)) ?_ ?_ data
      · intro a b hab hna
        have hna' : normalize O (jsGet a key) = none :=
          (normalize_eq_none_iff O _).2 hna
        by_cases hb : normalize O (jsGet b key) = none
        · exact (normalize_eq_none_iff O _).1 hb
        · exfalso
          have := cmpRec_null_left O key 1 a b hna' hb
          rw [this] at hab
          simp at hab
      · intro a b hab hnb
        have hnb' : normalize O (jsGet b key) = none :=
          (normalize_eq_none_iff O _).2 hnb
        by_cases ha : normalize O (jsGet a key) = none
        · exact (normalize_eq_none_iff O _).1 ha
        · exfalso
          have := cmpRec_null_right O key 1 a b ha hnb'
          rw [this] at hab
          simp at hab
    · intro hord
      have hbeq : (order == "asc") = false := by
        cases h : (order == "asc")
        · rfl
        · exact absurd (by simpa using h) hord
      have hsd : sortData O key order data
          = jsStableSort (fun a b => decide (cmpRec O key (-1) a b ≤ 0)) data := by
        unfold sortData
        rw [hbeq]
        rfl
      rw [hsd]
      refine jsStableSort_pairwise _ (fun a b c hab hbc ha => hab (hbc ha)) ?_ ?_ data
      · intro a b hab hnb
        have hnb' : normalize O (jsGet b key) = none :=
          (normalize_eq_none_iff O _).2 hnb
        by_cases ha : normalize O (jsGet a key) = none
        · exact (normalize_eq_none_iff O _).1 ha
        · exfalso
          have := cmpRec_null_right O key (-1) a b ha hnb'
          rw [this] at hab
          simp at hab
      · intro a b hab hna
        have hna' : normalize O (jsGet a key) = none :=
          (normalize_eq_none_iff O _).2 hna
        by_cases hb : normalize O (jsGet b key) = none
        · exact (normalize_eq_none_iff O _).1 hb
        · exfalso
          have := cmpRec_null_left O key (-1) a b hna' hb
          rw [this] at hab
          simp at hab
  · decide

/-- Counterexample for C5 as stated: sorting `[{n:"b"},{n:"a"},{n:null}]`
by `n` descending puts the null record first, not last. -/
theorem claimC5_counterexample :
    sortData sortOracleEx "n" "desc"
        [recN (.vstr "b"), recN (.vstr "a"), recN .vnull]
      = [recN .vnull, recN (.vstr "b"), recN (.vstr "a")] ∧
    sortData sortOracleEx "n" "desc"
        [recN (.vstr "b"), recN (.vstr "a"), recN .vnull]
      ≠ [recN (.vstr "b"), recN (.vstr "a"), recN .vnull] :=
  ⟨by decide, by decide⟩

/-- Witness for C5: the amended theorem applied at the concrete descending
example. -/
theorem claimC5_sortData_null_direction_witness :
    (sortData sortOracleEx "n" "desc"
        [recN (.vstr "b"), recN (.vstr "a"), recN .vnull]).Pairwise
      (fun a b => nullish (jsGet b "n") → nullish (jsGet a "n")) :=
  ((claimC5_sortData_null_direction sortOracleEx "n"
      [recN (.vstr "b"), recN (.vstr "a"), recN .vnull] "desc").1.2 (by decide))

/-! ## The date interpretation pipeline of `Renderer.render`
(Renderer.js lines 159-198) together with `formatDate`
(DateFunctions.js lines 8-11)

Cell values reaching the date logic are modelled by `CellVal`; a JS `Date`
object is `vdate t` with `t = none` for an Invalid Date.  `new Date(string)`
generic parsing is host-defined and supplied as the oracle `parse`
(`none` = Invalid Date).  The token-replacement body of `formatDate` on a
*valid* date is calendar arithmetic irrelevant to the claims and is supplied
as an oracle `fmtValid`; the guard of `formatDate`
(`!(date instanceof Date) || isNaN(date.getTime())` returns `""`) is
embedded exactly. -/

/-- A cell value for the renderer: `vnull` covers `null`/`undefined`. -/
inductive CellVal : Type where
  | vnull
  | vstr (s : String)
  | vnum (n : Int)
  | vdate (t : Option Int)
deriving DecidableEq, Repr

/-- JS truthiness of a cell value (objects such as dates are truthy). -/
def cellTruthy : CellVal → Bool
  | .vnull => false
  | .vstr s => !(s == "")
  | .vnum n => !(n == 0)
  | .vdate _ => true

/-- `String.prototype.trim`. -/
def trimChars (l : List Char) : List Char :=
  ((l.dropWhile Char.isWhitespace).reverse.dropWhile Char.isWhitespace).reverse

def jsTrim (s : String) : String := String.mk (trimChars s.data)

/-- `parseInt` on the captured digit group. -/
def digitsToNat (ds : List Char) : Nat :=
  ds.foldl (fun a c => a * 10 + (c.toNat - '0'.toNat)) 0

/-- Whole-pattern match of `/\/Date\((\d+)\)\//` at the current position. -/
def matchDateAtPos (l : List Char) : Option Nat :=
  if "/Date(".data.isPrefixOf l then
    let rest := l.drop 6
    let ds := rest.takeWhile Char.isDigit
    if ds.isEmpty then none
    else if ")/".data.isPrefixOf (rest.drop ds.length) then some (digitsToNat ds)
    else none
  else none

/-- `valueString.match(/\/Date\((\d+)\)\//)`: leftmost match anywhere. -/
def findDateWrapper : List Char → Option Nat
  | [] => none
  | c :: rest =>
      match matchDateAtPos (c :: rest) with
      | some n => some n
      | none => findDateWrapper rest

/-- `formatDate(date, format)` from DateFunctions.js: returns `""` when the
argument is not a Date instance (here: `none`, i.e. JS `null`) or is an
Invalid Date (`some none`); on a valid date it performs the token
replacement, supplied as `fmtValid`. -/
def formatDate (fmtValid : Int → String → String) :
    Option (Option Int) → String → String
  | some (some t), format => fmtValid t format
  | _, _ => ""

/-- The `dateCandidate` computation of `Renderer.render`: Date instances
pass through; strings are trimmed, then matched against the `/Date(ms)/`
wrapper, then handed to generic parsing when nonempty; nonzero numbers
above the plausible-timestamp threshold 100000 become dates; everything
else leaves the candidate `null`. -/
def dateCandidate (parse : String → Option Int) : CellVal → Option (Option Int)
  | .vdate t => some t
  | .vstr s =>
      let valueString := jsTrim s
      match findDateWrapper valueString.data with
      | some ms => some (some (Int.ofNat ms))
      | none => if valueString == "" then none else some (parse valueString)
  | .vnum n => if n == 0 then none else if decide (100000 < n) then some (some n) else none
  | .vnull => none

/-- The displayed cell value for one leaf column as computed by
`Renderer.render`: the null placeholder substitution (`??`), the
`dateFormat && datatype === "date" && cellValue` guard, and the
reassignment `cellValue = formatDate(dateCandidate, dateFormat)`. -/
def renderCellValue (parse : String → Option Int) (fmtValid : Int → String → String)
    (dateFormat : Option String) (datatypeIsDate : Bool) (nullPlaceholder : CellVal)
    (raw : CellVal) : CellVal :=
  let cellValue := if raw = .vnull then nullPlaceholder else raw
  match dateFormat with
  | some fmt =>
      if datatypeIsDate && cellTruthy cellValue then
        .vstr (formatDate fmtValid (dateCandidate parse cellValue) fmt)
      else cellValue
  | none => cellValue

/-- C6 (amended): when a date format is configured and the column datatype
is "date", a truthy cell value on which every interpretation branch fails
(the date candidate remains `null` or is an Invalid Date) is displayed as
the empty string — `formatDate` returns `""` for null/invalid input — not
as the raw value; rendering never throws (the computation is total).  When
a branch succeeds, the formatted date string is displayed. -/
theorem claimC6_dateFallback (parse : String → Option Int)
    (fmtValid : Int → String → String) (fmt : String) (nullPlaceholder raw : CellVal) :
    (cellTruthy (if raw = .vnull then nullPlaceholder else raw) = true →
      (dateCandidate parse (if raw = .vnull then nullPlaceholder else raw) = none ∨
       dateCandidate parse (if raw = .vnull then nullPlaceholder else raw) = some none) →
      renderCellValue parse fmtValid (some fmt) true nullPlaceholder raw = .vstr "") ∧
    (cellTruthy (if raw = .vnull then nullPlaceholder else raw) = true →
      ∀ t, dateCandidate parse (if raw = .vnull then nullPlaceholder else raw) = some (some t) →
      renderCellValue parse fmtValid (some fmt) true nullPlaceholder raw
        = .vstr (fmtValid t fmt)) := by
  constructor
  · intro htru hfail
    simp only [renderCellValue, Bool.true_and]
    rw [htru]
    rcases hfail with h | h
    · rw [h]
      rfl
    · rw [h]
      rfl
  · intro htru t hok
    simp only [renderCellValue, Bool.true_and]
    rw [htru]
    rw [hok]
    rfl

/-- Counterexample for C6 as stated: the number `42` (all interpretation
branches fail: not a Date, not a string, below the timestamp threshold)
renders as the empty string, not as the raw value `42`; likewise a
non-parsing string renders as `""`. -/
theorem claimC6_counterexample :
    renderCellValue (fun _ => none) (fun _ _ => "FMT") (some "dd MMM yyyy") true
        (.vstr "") (.vnum 42) = .vstr "" ∧
    CellVal.vstr "" ≠ CellVal.vnum 42 ∧
    renderCellValue (fun _ => none) (fun _ _ => "FMT") (some "dd MMM yyyy") true
        (.vstr "") (.vstr "not-a-date") = .vstr "" ∧
    CellVal.vstr "" ≠ CellVal.vstr "not-a-date" :=
  ⟨by decide, by decide, by decide, by decide⟩

/-- Witness for C6: the amended theorem applied at the raw value `42`. -/
theorem claimC6_dateFallback_witness :
    renderCellValue (fun _ => none) (fun _ _ => "FMT") (some "dd MMM yyyy") true
        (.vstr "") (.vnum 42) = .vstr "" :=
  (claimC6_dateFallback (fun _ => none) (fun _ _ => "FMT") "dd MMM yyyy"
      (.vstr "") (.vnum 42)).1 (by decide) (Or.inl (by decide))

/-! ## `Renderer._calculateHeaderStructure` (Renderer.js lines 498-550)

A column definition object; `children` is the (possibly empty) sibling
array, and a column with no `children` property is modelled with
`children = []` (the code treats `undefined` and `[]` the same way via
`column.children && column.children.length > 0`). -/

inductive Column : Type where
  | mk (key : String) (title : String) (index : Int) (freeze : Bool) (children : List Column)

def Column.key : Column → String
  | .mk k _ _ _ _ => k

def Column.title : Column → String
  | .mk _ t _ _ _ => t

def Column.index : Column → Int
  | .mk _ _ i _ _ => i

def Column.freeze : Column → Bool
  | .mk _ _ _ f _ => f

def Column.children : Column → List Column
  | .mk _ _ _ _ ch => ch

/-- The header object `{...column, level, colspan: 1, rowspan: 1}` with the
propagated `freeze` flag; the spread copies the `children` reference. -/
structure HeaderCell : Type where
  key : String
  title : String
  index : Int
  freeze : Bool
  children : List Column
  level : Nat
  colspan : Nat
  rowspan : Nat

/-- The mutable state of `_calculateHeaderStructure`: the `headerRows`
array of arrays and the `leafColumns` array. -/
structure HState : Type where
  headerRows : List (List HeaderCell)
  leafColumns : List HeaderCell

/-- `headerRows[level]`, an absent entry reading as `[]` (the code
initializes `headerRows[level] = []` on demand). -/
def getRow (rows : List (List HeaderCell)) (l : Nat) : List HeaderCell := rows.getD l []

/-- Writing `headerRows[level]`, growing the outer array as JS does. -/
def setRow (rows : List (List HeaderCell)) (l : Nat) (r : List HeaderCell) :
    List (List HeaderCell) :=
  if l < rows.length then rows.set l r
  else rows ++ List.replicate (l - rows.length) [] ++ [r]

/-- `headerRows[level].push(header)`. -/
def pushHeader (s : HState) (l : Nat) (h : HeaderCell) : HState :=
  { s with headerRows := setRow s.headerRows l (getRow s.headerRows l ++ [h]) }

mutual
/-- The recursive `traverse` of `_calculateHeaderStructure`.  The JS code
pushes the parent header first and then mutates its `colspan` in place
after the recursive calls; since nothing reads `headerRows[level]` during
the subtree traversal, the value-level model pushes the parent once, with
its final colspan, after the children have been traversed — producing the
same arrays.  The colspan accumulation reads each child's entry back out
of `headerRows[level+1]` by key with `find`, exactly as the source does. -/
def traverse : Column → Nat → Bool → HState → HState
  | .mk key title index freeze [], level, parentIsFrozen, s =>
      let currentlyFrozen := parentIsFrozen || freeze
      let header : HeaderCell := ⟨key, title, index, currentlyFrozen, [], level, 1, 1⟩
      let s1 := pushHeader s level header
      { s1 with leafColumns := s1.leafColumns ++ [header] }
  | .mk key title index freeze (c0 :: cs), level, parentIsFrozen, s =>
      let currentlyFrozen := parentIsFrozen || freeze
      let s1 := traverseList (c0 :: cs) (level + 1) currentlyFrozen s
      let colspan := (c0 :: cs).foldl (fun acc child =>
          acc + (match (getRow s1.headerRows (level + 1)).find?
                       (fun h => h.key == child.key) with
                 | some childHeader => childHeader.colspan
                 | none => 1)) 0
      pushHeader s1 level ⟨key, title, index, currentlyFrozen, c0 :: cs, level, colspan, 1⟩
def traverseList : List Column → Nat → Bool → HState → HState
  | [], _, _, s => s
  | c :: rest, level, parentIsFrozen, s =>
      traverseList rest level parentIsFrozen (traverse c level parentIsFrozen s)
end

/-- The final rowspan pass on one header: a header with no children gets
`rowspan = maxDepth - level` (the row index `lvl`), others keep 1. -/
def finalizeCell (maxDepth lvl : Nat) (h : HeaderCell) : HeaderCell :=
  if h.children.isEmpty then { h with rowspan := maxDepth - lvl } else h

/-- `headerRows.forEach((row, level) => row.forEach(...))` rowspan pass. -/
def applyRowspans (maxDepth lvl : Nat) : List (List HeaderCell) → List (List HeaderCell)
  | [] => []
  | row :: rest => row.map (finalizeCell maxDepth lvl) :: applyRowspans maxDepth (lvl + 1) rest

/-- The top-level sort comparator `(a, b) => a.index - b.index` read as
"comparator result ≤ 0". -/
def colIndexLe (a b : Column) : Bool := decide (a.index ≤ b.index)

/-- `_calculateHeaderStructure(columns)`.  `leafColumns` aliases the very
header objects stored in `headerRows` (each leaf header sits in row
`h.level` and has `children = []`), so the rowspan pass is visible through
`leafColumns` as well; the value model applies the identical
transformation to the leaf list. -/
def calculateHeaderStructure (columns : List Column) :
    List (List HeaderCell) × List HeaderCell :=
  let s := traverseList (jsStableSort colIndexLe columns) 0 false ⟨[], []⟩
  let maxDepth := s.headerRows.length
  (applyRowspans maxDepth 0 s.headerRows,
   s.leafColumns.map (fun h => finalizeCell maxDepth h.level h))

/-- `columns.sort(...)` sorts the caller's array in place; this is the
content of the caller's `columns` array after `_calculateHeaderStructure`
returns (Renderer.js lines 534-536). -/
def calcHeaderInputAfter (columns : List Column) : List Column :=
  jsStableSort colIndexLe columns

/-! ### Reference functions over the column forest -/

mutual
/-- Number of leaves of a column subtree. -/
def leafCount : Column → Nat
  | .mk _ _ _ _ [] => 1
  | .mk _ _ _ _ (c :: cs) => leafCountL (c :: cs)
def leafCountL : List Column → Nat
  | [] => 0
  | c :: rest => leafCount c + leafCountL rest
end

mutual
/-- Height of a column subtree (number of header rows it occupies). -/
def height : Column → Nat
  | .mk _ _ _ _ [] => 1
  | .mk _ _ _ _ (c :: cs) => 1 + heightL (c :: cs)
def heightL : List Column → Nat
  | [] => 0
  | c :: rest => max (height c) (heightL rest)
end

mutual
/-- All keys of a column subtree / forest, in pre-order. -/
def colKeys : Column → List String
  | .mk k _ _ _ ch => k :: colKeysL ch
def colKeysL : List Column → List String
  | [] => []
  | c :: rest => colKeys c ++ colKeysL rest
end

/-- The header cell generated for node `c` at level `lvl` whose parent's
effective freeze flag is `fr`, with its final colspan. -/
def hdrOf (lvl : Nat) (fr : Bool) (c : Column) : HeaderCell :=
  ⟨c.key, c.title, c.index, fr || c.freeze, c.children, lvl, leafCount c, 1⟩

mutual
/-- The header cells contributed by a subtree / forest rooted at level
`lvl` to the row `d` levels below `lvl` (pre-order). -/
def specRow : Column → Bool → Nat → Nat → List HeaderCell
  | c, fr, lvl, 0 => [hdrOf lvl fr c]
  | .mk _ _ _ f ch, fr, lvl, d + 1 => specRowL ch (fr || f) (lvl + 1) d
def specRowL : List Column → Bool → Nat → Nat → List HeaderCell
  | [], _, _, _ => []
  | c :: rest, fr, lvl, d => specRow c fr lvl d ++ specRowL rest fr lvl d
end

mutual
/-- The leaf header cells of a subtree / forest, in pre-order. -/
def specLeaves : Column → Bool → Nat → List HeaderCell
  | .mk k t i f [], fr, lvl => [hdrOf lvl fr (.mk k t i f [])]
  | .mk _ _ _ f (c :: cs), fr, lvl => specLeavesL (c :: cs) (fr || f) (lvl + 1)
def specLeavesL : List Column → Bool → Nat → List HeaderCell
  | [], _, _ => []
  | c :: rest, fr, lvl => specLeaves c fr lvl ++ specLeavesL rest fr lvl
end

mutual
/-- Total leaf count of the nodes at depth `d` of a subtree / forest. -/
def nodeCnt : Column → Nat → Nat
  | c, 0 => leafCount c
  | .mk _ _ _ _ ch, d + 1 => nodeCntL ch d
def nodeCntL : List Column → Nat → Nat
  | [], _ => 0
  | c :: rest, d => nodeCnt c d + nodeCntL rest d
end

mutual
/-- Number of childless nodes at depth `d` of a subtree / forest. -/
def leafCellCnt : Column → Nat → Nat
  | .mk _ _ _ _ [], 0 => 1
  | .mk _ _ _ _ (_ :: _), 0 => 0
  | .mk _ _ _ _ ch, d + 1 => leafCellCntL ch d
def leafCellCntL : List Column → Nat → Nat
  | [], _ => 0
  | c :: rest, d => leafCellCnt c d + leafCellCntL rest d
end

mutual
/-- Pre-order leaf keys of a forest, children taken in array order. -/
def preLeafKeys : Column → List String
  | .mk k _ _ _ [] => [k]
  | .mk _ _ _ _ (c :: cs) => preLeafKeysL (c :: cs)
def preLeafKeysL : List Column → List String
  | [] => []
  | c :: rest => preLeafKeys c ++ preLeafKeysL rest
end

mutual
/-- Modelled from the spec: the forest with siblings sorted by `index` at
*every* level ("Input columns are sorted by `index` at each sibling level
before traversal"), for comparison with the code's behaviour. -/
def deepSortCol : Column → Column
  | .mk k t i f ch => .mk k t i f (jsStableSort colIndexLe (deepSortList ch))
def deepSortList : List Column → List Column
  | [] => []
  | c :: rest => deepSortCol c :: deepSortList rest
end

/-- Colspan covering row `L`: the total colspan of the header cells that
occupy row `L`, counting a cell at row `d ≤ L` whenever its rowspan
extends past `L`. -/
def coverAt (rows : List (List HeaderCell)) (L : Nat) : Nat :=
  ((List.range (L + 1)).map (fun d =>
    ((getRow rows d).map (fun h => if L < d + h.rowspan then h.colspan else 0)).sum)).sum

/-! ### Lemmas on the row array -/

theorem getRow_setRow_self (rows : List (List HeaderCell)) (l : Nat) (r : List HeaderCell) :
    getRow (setRow rows l r) l = r := by
  unfold getRow setRow
  by_cases h : l < rows.length
  · rw [if_pos h, List.getD_eq_getElem?_getD, List.getElem?_set_self h]
    rfl
  · rw [if_neg h, List.getD_eq_getElem?_getD]
    have hlen : (rows ++ List.replicate (l - rows.length) ([] : List HeaderCell)).length = l := by
      simp
      omega
    rw [List.getElem?_append_right (by omega : (rows ++ List.replicate (l - rows.length) ([] : List HeaderCell)).length ≤ l)]
    rw [hlen, Nat.sub_self]
    rfl

theorem getRow_setRow_ne (rows : List (List HeaderCell)) (l l' : Nat) (r : List HeaderCell)
    (h : l' ≠ l) : getRow (setRow rows l r) l' = getRow rows l' := by
  unfold getRow setRow
  by_cases hl : l < rows.length
  · rw [if_pos hl, List.getD_eq_getElem?_getD, List.getElem?_set_ne (Ne.symm h),
      ← List.getD_eq_getElem?_getD]
  · rw [if_neg hl, List.getD_eq_getElem?_getD, List.getD_eq_getElem?_getD]
    have hlen : (rows ++ List.replicate (l - rows.length) ([] : List HeaderCell)).length = l := by
      simp
      omega
    by_cases h2 : l' < rows.length
    · rw [List.getElem?_append_left (by omega : l' < (rows ++ List.replicate (l - rows.length) ([] : List HeaderCell)).length)]
      rw [List.getElem?_append_left h2]
    · rw [List.getElem?_eq_none (by omega : rows.length ≤ l')]
      by_cases h3 : l' < l
      · rw [List.getElem?_append_left (by omega : l' < (rows ++ List.replicate (l - rows.length) ([] : List HeaderCell)).length)]
        rw [List.getElem?_append_right (by omega : rows.length ≤ l')]
        rw [List.getElem?_replicate, if_pos (by omega)]
        rfl
      · rw [List.getElem?_eq_none (by simp; omega : ((rows ++ List.replicate (l - rows.length) ([] : List HeaderCell)) ++ [r]).length ≤ l')]

theorem length_setRow (rows : List (List HeaderCell)) (l : Nat) (r : List HeaderCell) :
    (setRow rows l r).length = max rows.length (l + 1) := by
  unfold setRow
  by_cases h : l < rows.length
  · rw [if_pos h]
    simp
    omega
  · rw [if_neg h]
    simp
    omega

theorem lt_length_of_getRow_ne_nil (rows : List (List HeaderCell)) (d : Nat)
    (h : getRow rows d ≠ []) : d < rows.length := by
  by_contra hd
  exact h (by unfold getRow; rw [List.getD_eq_getElem?_getD, List.getElem?_eq_none (by omega)]; rfl)

theorem applyRowspans_getRow (H lvl : Nat) (rows : List (List HeaderCell)) (d : Nat) :
    getRow (applyRowspans H lvl rows) d = (getRow rows d).map (finalizeCell H (lvl + d)) := by
  induction rows generalizing lvl d with
  | nil => simp [applyRowspans, getRow]
  | cons row rest ih =>
      cases d with
      | zero => simp [applyRowspans, getRow]
      | succ d' =>
          have := ih (lvl + 1) d'
          simp only [applyRowspans, getRow, List.getD_cons_succ]
          rw [show lvl + 1 + d' = lvl + (d' + 1) by omega] at this
          exact this

theorem applyRowspans_length (H lvl : Nat) (rows : List (List HeaderCell)) :
    (applyRowspans H lvl rows).length = rows.length := by
  induction rows generalizing lvl with
  | nil => rfl
  | cons row rest ih => simp [applyRowspans, ih]

/-! ### Weak invariant: any produced cell records its own row as `level`
and carries `rowspan = 1` before the final pass (no key-uniqueness
assumptions needed). -/

mutual
theorem traverse_cell_weak (c : Column) (level : Nat) (fr : Bool) (s : HState) :
    ∀ ℓ h, h ∈ getRow (traverse c level fr s).headerRows ℓ →
      h ∈ getRow s.headerRows ℓ ∨ (h.level = ℓ ∧ h.rowspan = 1) := by
  cases c with
  | mk k t i f ch =>
      cases ch with
      | nil =>
          intro ℓ h hmem
          simp only [traverse, pushHeader] at hmem
          by_cases hℓ : ℓ = level
          · subst hℓ
            rw [getRow_setRow_self] at hmem
            rcases List.mem_append.1 hmem with hm | hm
            · exact Or.inl hm
            · right
              simp only [List.mem_singleton] at hm
              subst hm
              exact ⟨rfl, rfl⟩
          · rw [getRow_setRow_ne _ _ _ _ hℓ] at hmem
            exact Or.inl hmem
      | cons c0 cs =>
          intro ℓ h hmem
          simp only [traverse, pushHeader] at hmem
          by_cases hℓ : ℓ = level
          · subst hℓ
            rw [getRow_setRow_self] at hmem
            rcases List.mem_append.1 hmem with hm | hm
            · rcases traverseList_cell_weak (c0 :: cs) (ℓ + 1) (fr || f) s ℓ h hm with
                hm2 | hm2
              · exact Or.inl hm2
              · exact Or.inr hm2
            · right
              simp only [List.mem_singleton] at hm
              subst hm
              exact ⟨rfl, rfl⟩
          · rw [getRow_setRow_ne _ _ _ _ hℓ] at hmem
            rcases traverseList_cell_weak (c0 :: cs) (level + 1) (fr || f) s ℓ h hmem with
              hm2 | hm2
            · exact Or.inl hm2
            · exact Or.inr hm2
theorem traverseList_cell_weak (cs : List Column) (level : Nat) (fr : Bool) (s : HState) :
    ∀ ℓ h, h ∈ getRow (traverseList cs level fr s).headerRows ℓ →
      h ∈ getRow s.headerRows ℓ ∨ (h.level = ℓ ∧ h.rowspan = 1) := by
  cases cs with
  | nil =>
      intro ℓ h hmem
      exact Or.inl hmem
  | cons c rest =>
      intro ℓ h hmem
      rcases traverseList_cell_weak rest level fr (traverse c level fr s) ℓ h hmem with hm | hm
      · exact traverse_cell_weak c level fr s ℓ h hm
      · exact Or.inr hm
end

/-! ### The leaf list is the pre-order leaf sequence (no hypotheses). -/

mutual
theorem traverse_leaves (c : Column) (level : Nat) (fr : Bool) (s : HState) :
    (traverse c level fr s).leafColumns = s.leafColumns ++ specLeaves c fr level := by
  cases c with
  | mk k t i f ch =>
      cases ch with
      | nil => rfl
      | cons c0 cs =>
          show (traverseList (c0 :: cs) (level + 1) (fr || f) s).leafColumns
            = s.leafColumns ++ specLeaves (.mk k t i f (c0 :: cs)) fr level
          rw [traverseList_leaves (c0 :: cs) (level + 1) (fr || f) s]
          rfl
theorem traverseList_leaves (cs : List Column) (level : Nat) (fr : Bool) (s : HState) :
    (traverseList cs level fr s).leafColumns = s.leafColumns ++ specLeavesL cs fr level := by
  cases cs with
  | nil => simp [traverseList, specLeavesL]
  | cons c rest =>
      show (traverseList rest level fr (traverse c level fr s)).leafColumns = _
      rw [traverseList_leaves rest level fr (traverse c level fr s),
        traverse_leaves c level fr s]
      simp [specLeavesL]
end

/-! ### The number of header rows equals the forest height. -/

mutual
theorem traverse_length (c : Column) (level : Nat) (fr : Bool) (s : HState) :
    (traverse c level fr s).headerRows.length
      = max s.headerRows.length (level + height c) := by
  cases c with
  | mk k t i f ch =>
      cases ch with
      | nil =>
          show (setRow s.headerRows level _).length = _
          rw [length_setRow]
          rfl
      | cons c0 cs =>
          show (setRow (traverseList (c0 :: cs) (level + 1) (fr || f) s).headerRows level _).length = _
          rw [length_setRow, traverseList_length (c0 :: cs) (level + 1) (fr || f) s (by simp)]
          show _ = max s.headerRows.length (level + (1 + heightL (c0 :: cs)))
          omega
theorem traverseList_length (cs : List Column) (level : Nat) (fr : Bool) (s : HState)
    (hne : cs ≠ []) :
    (traverseList cs level fr s).headerRows.length
      = max s.headerRows.length (level + heightL cs) := by
  cases cs with
  | nil => exact absurd rfl hne
  | cons c rest =>
      show (traverseList rest level fr (traverse c level fr s)).headerRows.length = _
      cases rest with
      | nil =>
          show (traverse c level fr s).headerRows.length = _
          rw [traverse_length c level fr s]
          show _ = max s.headerRows.length (level + max (height c) 0)
          omega
      | cons c1 cs1 =>
          rw [traverseList_length (c1 :: cs1) level fr (traverse c level fr s) (by simp),
            traverse_length c level fr s]
          show _ = max s.headerRows.length (level + max (height c) (heightL (c1 :: cs1)))
          omega
end

/-! ### Claim C4: rowspans -/

/-- C4: for every column forest, every header cell of the computed structure
records its own row as `level`; a cell whose column has no children gets
`rowspan = maxDepth - level` (so `rowspan + level = maxDepth`, the number of
header rows), and a cell whose column has children keeps `rowspan = 1`. -/
theorem claimC4_rowspans (cols : List Column) :
    ∀ d h, h ∈ getRow ((calculateHeaderStructure cols).1) d →
      h.level = d ∧
      (h.children = [] →
        h.rowspan + h.level = (calculateHeaderStructure cols).1.length) ∧
      (h.children ≠ [] → h.rowspan = 1) := by
  intro d h hmem
  have hcalc : (calculateHeaderStructure cols).1
      = applyRowspans
          (traverseList (jsStableSort colIndexLe cols) 0 false ⟨[], []⟩).headerRows.length 0
          (traverseList (jsStableSort colIndexLe cols) 0 false ⟨[], []⟩).headerRows := rfl
  set rows0 := (traverseList (jsStableSort colIndexLe cols) 0 false ⟨[], []⟩).headerRows with hrows0
  set H := rows0.length with hH
  rw [hcalc, applyRowspans_getRow] at hmem
  rcases List.mem_map.1 hmem with ⟨h0, hh0, hfin⟩
  have hw := traverseList_cell_weak (jsStableSort colIndexLe cols) 0 false ⟨[], []⟩ d h0 hh0
  rcases hw with hw | hw
  · exact absurd hw (by simp [getRow])
  have hdH : d < H := by
    rw [hH]
    exact lt_length_of_getRow_ne_nil rows0 d (fun he => by rw [he] at hh0; exact absurd hh0 (by simp))
  have hlen : (calculateHeaderStructure cols).1.length = H := by
    rw [hcalc]
    exact applyRowspans_length H 0 rows0
  by_cases hch : h0.children = []
  · have hfe : finalizeCell H (0 + d) h0 = { h0 with rowspan := H - (0 + d) } := by
      unfold finalizeCell
      rw [if_pos (by simp [hch])]
    rw [hfe] at hfin
    subst hfin
    refine ⟨hw.1, fun _ => ?_, fun hne => absurd hch hne⟩
    rw [hlen]
    show H - (0 + d) + h0.level = H
    rw [hw.1]
    omega
  · have hfe : finalizeCell H (0 + d) h0 = h0 := by
      unfold finalizeCell
      rw [if_neg (by simpa using hch)]
    rw [hfe] at hfin
    subst hfin
    exact ⟨hw.1, fun hc => absurd hc hch, fun _ => hw.2⟩

/-- Concrete single-leaf forest for the C4 witness. -/
def exColsC4 : List Column := [.mk "a" "A" 0 false []]

/-- Witness for C4: the rowspan law applied to the concrete cell of a
one-column forest. -/
theorem claimC4_rowspans_witness :
    (⟨"a", "A", 0, false, [], 0, 1, 1⟩ : HeaderCell).level = 0 ∧
    (⟨"a", "A", 0, false, [], 0, 1, 1⟩ : HeaderCell).rowspan +
        (⟨"a", "A", 0, false, [], 0, 1, 1⟩ : HeaderCell).level
      = (calculateHeaderStructure exColsC4).1.length := by
  have hrow : getRow ((calculateHeaderStructure exColsC4).1) 0
      = [⟨"a", "A", 0, false, [], 0, 1, 1⟩] := rfl
  have hmem : (⟨"a", "A", 0, false, [], 0, 1, 1⟩ : HeaderCell)
      ∈ getRow ((calculateHeaderStructure exColsC4).1) 0 := by
    rw [hrow]
    exact List.mem_singleton.2 rfl
  have h := claimC4_rowspans exColsC4 0 _ hmem
  exact ⟨h.1, h.2.1 rfl⟩

/-! ### Claim C3: leaf order -/

mutual
theorem specLeaves_map_key (c : Column) (fr : Bool) (lvl : Nat) :
    (specLeaves c fr lvl).map HeaderCell.key = preLeafKeys c := by
  cases c with
  | mk k t i f ch =>
      cases ch with
      | nil => rfl
      | cons c0 cs =>
          show (specLeavesL (c0 :: cs) (fr || f) (lvl + 1)).map HeaderCell.key = _
          rw [specLeavesL_map_key (c0 :: cs) (fr || f) (lvl + 1)]
          rfl
theorem specLeavesL_map_key (cs : List Column) (fr : Bool) (lvl : Nat) :
    (specLeavesL cs fr lvl).map HeaderCell.key = preLeafKeysL cs := by
  cases cs with
  | nil => rfl
  | cons c rest =>
      show ((specLeaves c fr lvl ++ specLeavesL rest fr lvl)).map HeaderCell.key = _
      rw [List.map_append, specLeaves_map_key c fr lvl, specLeavesL_map_key rest fr lvl]
      rfl
end

theorem finalizeCell_key (H l : Nat) (h : HeaderCell) : (finalizeCell H l h).key = h.key := by
  unfold finalizeCell
  by_cases hc : h.children.isEmpty
  · rw [if_pos hc]
  · rw [if_neg hc]

theorem colIndexLe_total (a b : Column) : colIndexLe a b = false → colIndexLe b a = true := by
  unfold colIndexLe
  intro h
  simp only [decide_eq_false_iff_not] at h
  simpa using le_of_not_le h

theorem jsStableSort_colIndexLe_idem (cols : List Column) :
    jsStableSort colIndexLe (jsStableSort colIndexLe cols) = jsStableSort colIndexLe cols := by
  apply jsStableSort_of_pairwise
  exact jsStableSort_pairwise colIndexLe
    (fun a b c hab hbc => by
      unfold colIndexLe at hab hbc ⊢
      simp only [decide_eq_true_eq] at hab hbc ⊢
      omega)
    (fun a b h => h)
    (fun a b h => colIndexLe_total a b h)
    cols

/-- C3 (amended): `_calculateHeaderStructure` sorts only the *top-level*
column array by `index` (stably, via `Array.prototype.sort`); nested sibling
lists are traversed in their original array order.  `leafColumns` therefore
equals the pre-order leaf sequence of the top-level-sorted forest with
children in array order, and re-running the computation on the (already
sorted, unchanged) tree yields the identical structure. -/
theorem claimC3_leaf_order (cols : List Column) :
    ((calculateHeaderStructure cols).2).map HeaderCell.key
      = preLeafKeysL (jsStableSort colIndexLe cols) ∧
    calculateHeaderStructure (calcHeaderInputAfter cols) = calculateHeaderStructure cols := by
  constructor
  · have hleaves : (calculateHeaderStructure cols).2
        = ((traverseList (jsStableSort colIndexLe cols) 0 false ⟨[], []⟩).leafColumns).map
            (fun h => finalizeCell
              (traverseList (jsStableSort colIndexLe cols) 0 false ⟨[], []⟩).headerRows.length
              h.level h) := rfl
    rw [hleaves, traverseList_leaves (jsStableSort colIndexLe cols) 0 false ⟨[], []⟩]
    rw [show (⟨[], []⟩ : HState).leafColumns ++ specLeavesL (jsStableSort colIndexLe cols) false 0
        = specLeavesL (jsStableSort colIndexLe cols) false 0 by rfl]
    rw [List.map_map]
    rw [show (HeaderCell.key ∘ fun h => finalizeCell
          (traverseList (jsStableSort colIndexLe cols) 0 false ⟨[], []⟩).headerRows.length
          h.level h) = HeaderCell.key from funext (fun h => finalizeCell_key _ _ h)]
    exact specLeavesL_map_key (jsStableSort colIndexLe cols) false 0
  · show calculateHeaderStructure (jsStableSort colIndexLe cols) = calculateHeaderStructure cols
    unfold calculateHeaderStructure
    rw [jsStableSort_colIndexLe_idem]

/-- Concrete forest for the C3 counterexample: one group whose children
appear in the array as `[b (index 1), a (index 0)]`. -/
def exColsC3 : List Column :=
  [.mk "p" "P" 0 false [.mk "b" "B" 1 false [], .mk "a" "A" 0 false []]]

/-- Counterexample for C3 as stated: children are *not* sorted by `index`,
so `leafColumns` is `[b, a]` (array order) while the index-sorted pre-order
traversal of the forest (children sorted by `index` at every level, modelled
from the spec by `deepSortList`) yields `[a, b]`. -/
theorem claimC3_counterexample :
    ((calculateHeaderStructure exColsC3).2).map HeaderCell.key = ["b", "a"] ∧
    preLeafKeysL (jsStableSort colIndexLe (deepSortList exColsC3)) = ["a", "b"] ∧
    ((calculateHeaderStructure exColsC3).2).map HeaderCell.key
      ≠ preLeafKeysL (jsStableSort colIndexLe (deepSortList exColsC3)) :=
  ⟨by decide, by decide, by decide⟩

/-! ### Claim C9: purity and input mutation -/

/-- C9 (amended): the header layout computation is deterministic and
DOM-free (it is a pure function of the forest in this model) and never
mutates a column *node* (headers are clones `{...column}`), but it *does*
reorder the caller's top-level `columns` array in place via
`Array.prototype.sort`: after the call the array holds the same nodes
stably sorted by `index`, and it is unchanged only when it was already
sorted. -/
theorem claimC9_input_mutation (cols : List Column) :
    (calcHeaderInputAfter cols).Perm cols ∧
    (cols.Pairwise (fun a b => colIndexLe a b = true) → calcHeaderInputAfter cols = cols) := by
  constructor
  · exact jsStableSort_perm colIndexLe cols
  · intro hsorted
    exact jsStableSort_of_pairwise colIndexLe cols hsorted

/-- Concrete unsorted forest for the C9 counterexample. -/
def exColsC9 : List Column := [.mk "x" "X" 1 false [], .mk "y" "Y" 0 false []]

/-- Counterexample for C9 as stated: after the call the caller's array is
reordered — the element order `[index 1, index 0]` has become
`[index 0, index 1]`. -/
theorem claimC9_counterexample :
    calcHeaderInputAfter exColsC9 ≠ exColsC9 ∧
    (calcHeaderInputAfter exColsC9).map Column.index = [0, 1] ∧
    exColsC9.map Column.index = [1, 0] := by
  refine ⟨?_, by decide, by decide⟩
  intro h
  have h2 := congrArg (List.map Column.index) h
  rw [show (calcHeaderInputAfter exColsC9).map Column.index = [0, 1] by decide] at h2
  rw [show exColsC9.map Column.index = [1, 0] by decide] at h2
  exact absurd h2 (by decide)

/-- Witness for C9: the amended theorem applied to an already-sorted
concrete array, whose order the call preserves. -/
theorem claimC9_input_mutation_witness :
    calcHeaderInputAfter [Column.mk "y" "Y" 0 false [], Column.mk "x" "X" 1 false []]
      = [Column.mk "y" "Y" 0 false [], Column.mk "x" "X" 1 false []] :=
  (claimC9_input_mutation [Column.mk "y" "Y" 0 false [], Column.mk "x" "X" 1 false []]).2
    (List.Pairwise.cons (fun c hc => by
        simp only [List.mem_singleton] at hc
        subst hc
        decide)
      (List.pairwise_singleton _ _))

/-! ### Key membership and uniqueness machinery for the colspan proof -/

theorem key_mem_colKeys (c : Column) : c.key ∈ colKeys c := by
  cases c with
  | mk k t i f ch => exact List.mem_cons_self k _

theorem key_mem_colKeysL (c : Column) (cs : List Column) (h : c ∈ cs) :
    c.key ∈ colKeysL cs := by
  induction cs with
  | nil => simp at h
  | cons c0 rest ih =>
      rcases List.mem_cons.1 h with h | h
      · subst h
        exact List.mem_append_left _ (key_mem_colKeys c)
      · exact List.mem_append_right _ (ih h)

mutual
theorem specRow_key_mem (c : Column) (fr : Bool) (lvl d : Nat) :
    ∀ h ∈ specRow c fr lvl d, h.key ∈ colKeys c := by
  cases d with
  | zero =>
      intro h hm
      simp only [specRow, List.mem_singleton] at hm
      subst hm
      exact key_mem_colKeys c
  | succ d' =>
      cases c with
      | mk k t i f ch =>
          intro h hm
          have := specRowL_key_mem ch (fr || f) (lvl + 1) d' h hm
          exact List.mem_cons_of_mem k this
theorem specRowL_key_mem (cs : List Column) (fr : Bool) (lvl d : Nat) :
    ∀ h ∈ specRowL cs fr lvl d, h.key ∈ colKeysL cs := by
  cases cs with
  | nil => intro h hm; simp [specRowL] at hm
  | cons c rest =>
      intro h hm
      rcases List.mem_append.1 hm with hm | hm
      · exact List.mem_append_left _ (specRow_key_mem c fr lvl d h hm)
      · exact List.mem_append_right _ (specRowL_key_mem rest fr lvl d h hm)
end

theorem specRowL_zero (cs : List Column) (fr : Bool) (lvl : Nat) :
    specRowL cs fr lvl 0 = cs.map (hdrOf lvl fr) := by
  induction cs with
  | nil => rfl
  | cons c rest ih =>
      show specRow c fr lvl 0 ++ specRowL rest fr lvl 0 = _
      rw [ih]
      cases c with
      | mk k t i f ch => rfl

theorem childKeys_nodup (cs : List Column) (hnd : (colKeysL cs).Nodup) :
    (cs.map Column.key).Nodup := by
  induction cs with
  | nil => exact List.nodup_nil
  | cons c rest ih =>
      rcases List.nodup_append.1 hnd with ⟨nd1, nd2, hdisj⟩
      refine List.nodup_cons.2 ⟨?_, ih nd2⟩
      intro hmem
      rcases List.mem_map.1 hmem with ⟨c', hc', hkey⟩
      exact hdisj (key_mem_colKeys c) (hkey ▸ key_mem_colKeysL c' rest hc')

theorem find_child_header (cs : List Column) (child : Column) (lvl : Nat) (fr : Bool)
    (hmem : child ∈ cs) (hnd : (cs.map Column.key).Nodup) :
    (cs.map (hdrOf lvl fr)).find? (fun h => h.key == child.key)
      = some (hdrOf lvl fr child) := by
  induction cs with
  | nil => simp at hmem
  | cons c0 rest ih =>
      rcases List.mem_cons.1 hmem with h | h
      · subst h
        simp [List.find?_cons, hdrOf]
      · have hne : c0.key ≠ child.key := by
          intro he
          exact (List.nodup_cons.1 hnd).1 (he ▸ List.mem_map.2 ⟨child, h, rfl⟩)
        have hb : ((hdrOf lvl fr c0).key == child.key) = false := by
          simpa [hdrOf] using hne
        simp only [List.map_cons, List.find?_cons, hb]
        exact ih h (List.nodup_cons.1 hnd).2

theorem colspan_foldl (row : List HeaderCell) (lvl : Nat) (fr : Bool) (cs : List Column)
    (hlook : ∀ child ∈ cs,
      row.find? (fun h => h.key == child.key) = some (hdrOf lvl fr child)) :
    ∀ acc, cs.foldl (fun acc child =>
        acc + (match row.find? (fun h => h.key == child.key) with
               | some childHeader => childHeader.colspan
               | none => 1)) acc = acc + leafCountL cs := by
  induction cs with
  | nil => intro acc; simp [leafCountL]
  | cons c rest ih =>
      intro acc
      rw [List.foldl_cons, hlook c (List.mem_cons_self c rest)]
      rw [ih (fun child hc => hlook child (List.mem_cons_of_mem c hc))]
      show acc + (hdrOf lvl fr c).colspan + leafCountL rest = acc + leafCountL (c :: rest)
      show acc + leafCount c + leafCountL rest = acc + leafCountL (c :: rest)
      show _ = acc + (leafCount c + leafCountL rest)
      omega

/-! ### The full characterization of the header rows under key uniqueness.

When all keys of the forest are pairwise distinct (and distinct from the
keys already present in the state), the `find` lookup that accumulates a
parent's colspan always retrieves the child's own header, and row
`level + d` receives exactly the pre-order headers of the nodes at depth
`d`, each carrying `colspan = leafCount`. -/

mutual
theorem traverse_spec (c : Column) (level : Nat) (fr : Bool) (s : HState)
    (hnd : (colKeys c).Nodup)
    (hdis : ∀ ℓ h, h ∈ getRow s.headerRows ℓ → h.key ∉ colKeys c) :
    (∀ d, getRow (traverse c level fr s).headerRows (level + d)
        = getRow s.headerRows (level + d) ++ specRow c fr level d) ∧
    (∀ ℓ, ℓ < level → getRow (traverse c level fr s).headerRows ℓ = getRow s.headerRows ℓ) := by
  cases c with
  | mk k t i f ch =>
    cases ch with
    | nil =>
        simp only [traverse, pushHeader]
        constructor
        · intro d
          cases d with
          | zero => rw [Nat.add_zero, getRow_setRow_self]; rfl
          | succ d' =>
              rw [getRow_setRow_ne _ _ _ _ (by omega)]
              show _ = getRow s.headerRows (level + (d' + 1)) ++ specRowL [] (fr || f) (level + 1) d'
              rw [show specRowL [] (fr || f) (level + 1) d' = [] from rfl, List.append_nil]
        · intro ℓ hℓ
          rw [getRow_setRow_ne _ _ _ _ (by omega)]
    | cons c0 cs =>
        have hnd' : (colKeysL (c0 :: cs)).Nodup := (List.nodup_cons.1 hnd).2
        have hdis' : ∀ ℓ h, h ∈ getRow s.headerRows ℓ → h.key ∉ colKeysL (c0 :: cs) :=
          fun ℓ h hm hk => hdis ℓ h hm (List.mem_cons_of_mem k hk)
        have IH := traverseList_spec (c0 :: cs) (level + 1) (fr || f) s hnd' hdis'
        have hrow1 : getRow (traverseList (c0 :: cs) (level + 1) (fr || f) s).headerRows (level + 1)
            = getRow s.headerRows (level + 1) ++ (c0 :: cs).map (hdrOf (level + 1) (fr || f)) := by
          have := IH.1 0
          rw [← specRowL_zero (c0 :: cs) (fr || f) (level + 1)]
          exact this
        have hlook : ∀ child ∈ (c0 :: cs),
            (getRow (traverseList (c0 :: cs) (level + 1) (fr || f) s).headerRows (level + 1)).find?
                (fun h => h.key == child.key)
              = some (hdrOf (level + 1) (fr || f) child) := by
          intro child hchild
          rw [hrow1, List.find?_append]
          have hnone : (getRow s.headerRows (level + 1)).find? (fun h => h.key == child.key)
              = none := by
            rw [List.find?_eq_none]
            intro x hx
            have hxk := hdis (level + 1) x hx
            have hck : child.key ∈ colKeys (Column.mk k t i f (c0 :: cs)) :=
              List.mem_cons_of_mem k (key_mem_colKeysL child _ hchild)
            simp only [beq_iff_eq]
            intro he
            exact hxk (he ▸ hck)
          rw [hnone, Option.none_or]
          exact find_child_header (c0 :: cs) child (level + 1) (fr || f) hchild
            (childKeys_nodup _ hnd')
        have hfold : (c0 :: cs).foldl (fun acc child =>
            acc + (match (getRow (traverseList (c0 :: cs) (level + 1) (fr || f) s).headerRows
                      (level + 1)).find? (fun h => h.key == child.key) with
                   | some childHeader => childHeader.colspan
                   | none => 1)) 0 = leafCountL (c0 :: cs) := by
          rw [colspan_foldl _ (level + 1) (fr || f) (c0 :: cs) hlook 0]
          omega
        simp only [traverse, pushHeader]
        constructor
        · intro d
          cases d with
          | zero =>
              simp only [Nat.add_zero]
              rw [getRow_setRow_self]
              rw [IH.2 level (by omega)]
              rw [hfold]
              rfl
          | succ d' =>
              rw [getRow_setRow_ne _ _ _ _ (by omega)]
              rw [show level + (d' + 1) = (level + 1) + d' by omega]
              rw [IH.1 d']
              rfl
        · intro ℓ hℓ
          rw [getRow_setRow_ne _ _ _ _ (by omega)]
          rw [IH.2 ℓ (by omega)]
theorem traverseList_spec (cs : List Column) (level : Nat) (fr : Bool) (s : HState)
    (hnd : (colKeysL cs).Nodup)
    (hdis : ∀ ℓ h, h ∈ getRow s.headerRows ℓ → h.key ∉ colKeysL cs) :
    (∀ d, getRow (traverseList cs level fr s).headerRows (level + d)
        = getRow s.headerRows (level + d) ++ specRowL cs fr level d) ∧
    (∀ ℓ, ℓ < level → getRow (traverseList cs level fr s).headerRows ℓ = getRow s.headerRows ℓ) := by
  cases cs with
  | nil =>
      constructor
      · intro d
        show getRow s.headerRows (level + d) = getRow s.headerRows (level + d) ++ []
        rw [List.append_nil]
      · intro ℓ _
        rfl
  | cons c rest =>
      rcases List.nodup_append.1 hnd with ⟨nd1, nd2, hdisj⟩
      have hdis1 : ∀ ℓ h, h ∈ getRow s.headerRows ℓ → h.key ∉ colKeys c :=
        fun ℓ h hm hk => hdis ℓ h hm (List.mem_append_left _ hk)
      have IH1 := traverse_spec c level fr s nd1 hdis1
      have hdis2 : ∀ ℓ h, h ∈ getRow (traverse c level fr s).headerRows ℓ →
          h.key ∉ colKeysL rest := by
        intro ℓ h hm hk
        by_cases hℓ : ℓ < level
        · rw [IH1.2 ℓ hℓ] at hm
          exact hdis ℓ h hm (List.mem_append_right _ hk)
        · have hdd : ℓ = level + (ℓ - level) := by omega
          rw [hdd, IH1.1 (ℓ - level)] at hm
          rcases List.mem_append.1 hm with hm | hm
          · exact hdis _ h hm (List.mem_append_right _ hk)
          · exact hdisj (specRow_key_mem c fr level (ℓ - level) h hm) hk
      have IH2 := traverseList_spec rest level fr (traverse c level fr s) nd2 hdis2
      constructor
      · intro d
        show getRow (traverseList rest level fr (traverse c level fr s)).headerRows (level + d) = _
        rw [IH2.1 d, IH1.1 d]
        show _ = getRow s.headerRows (level + d) ++ (specRow c fr level d ++ specRowL rest fr level d)
        rw [List.append_assoc]
      · intro ℓ hℓ
        show getRow (traverseList rest level fr (traverse c level fr s)).headerRows ℓ = _
        rw [IH2.2 ℓ hℓ, IH1.2 ℓ hℓ]
end

/-! ### Counting lemmas for the tiling property -/

theorem finalizeCell_colspan (H l : Nat) (h : HeaderCell) :
    (finalizeCell H l h).colspan = h.colspan := by
  unfold finalizeCell
  by_cases hc : h.children.isEmpty
  · rw [if_pos hc]
  · rw [if_neg hc]

theorem leafCount_leaf (k t : String) (i : Int) (f : Bool) :
    leafCount (.mk k t i f []) = 1 := by
  simp [leafCount]

theorem leafCount_node (k t : String) (i : Int) (f : Bool) (c0 : Column) (cs : List Column) :
    leafCount (.mk k t i f (c0 :: cs)) = leafCountL (c0 :: cs) := by
  simp [leafCount]

theorem nodeCnt_zero (c : Column) : nodeCnt c 0 = leafCount c := by
  simp [nodeCnt]

theorem nodeCnt_succ (k t : String) (i : Int) (f : Bool) (ch : List Column) (d : Nat) :
    nodeCnt (.mk k t i f ch) (d + 1) = nodeCntL ch d := by
  simp [nodeCnt]

theorem nodeCntL_cons (c : Column) (rest : List Column) (d : Nat) :
    nodeCntL (c :: rest) d = nodeCnt c d + nodeCntL rest d := by
  simp [nodeCntL]

theorem leafCellCnt_leaf (k t : String) (i : Int) (f : Bool) :
    leafCellCnt (.mk k t i f []) 0 = 1 := by
  simp [leafCellCnt]

theorem leafCellCnt_node (k t : String) (i : Int) (f : Bool) (c0 : Column) (cs : List Column) :
    leafCellCnt (.mk k t i f (c0 :: cs)) 0 = 0 := by
  simp [leafCellCnt]

theorem leafCellCnt_succ (k t : String) (i : Int) (f : Bool) (ch : List Column) (d : Nat) :
    leafCellCnt (.mk k t i f ch) (d + 1) = leafCellCntL ch d := by
  cases ch with
  | nil => rfl
  | cons c0 cs => rfl

theorem leafCellCntL_cons (c : Column) (rest : List Column) (d : Nat) :
    leafCellCntL (c :: rest) d = leafCellCnt c d + leafCellCntL rest d := by
  simp [leafCellCntL]

theorem specRow_zero (c : Column) (fr : Bool) (lvl : Nat) :
    specRow c fr lvl 0 = [hdrOf lvl fr c] := by
  simp [specRow]

theorem specRow_succ (k t : String) (i : Int) (f : Bool) (ch : List Column)
    (fr : Bool) (lvl d : Nat) :
    specRow (.mk k t i f ch) fr lvl (d + 1) = specRowL ch (fr || f) (lvl + 1) d := by
  simp [specRow]

theorem specRowL_cons (c : Column) (rest : List Column) (fr : Bool) (lvl d : Nat) :
    specRowL (c :: rest) fr lvl d = specRow c fr lvl d ++ specRowL rest fr lvl d := by
  simp [specRowL]

theorem hdrOf_children (lvl : Nat) (fr : Bool) (k t : String) (i : Int) (f : Bool)
    (ch : List Column) : (hdrOf lvl fr (.mk k t i f ch)).children = ch := rfl

mutual
theorem specLeaves_length (c : Column) (fr : Bool) (lvl : Nat) :
    (specLeaves c fr lvl).length = leafCount c := by
  cases c with
  | mk k t i f ch =>
      cases ch with
      | nil => rfl
      | cons c0 cs =>
          show (specLeavesL (c0 :: cs) (fr || f) (lvl + 1)).length = leafCount (.mk k t i f (c0 :: cs))
          rw [leafCount_node]
          exact specLeavesL_length (c0 :: cs) (fr || f) (lvl + 1)
theorem specLeavesL_length (cs : List Column) (fr : Bool) (lvl : Nat) :
    (specLeavesL cs fr lvl).length = leafCountL cs := by
  cases cs with
  | nil => rfl
  | cons c rest =>
      show (specLeaves c fr lvl ++ specLeavesL rest fr lvl).length = _
      rw [List.length_append, specLeaves_length c fr lvl, specLeavesL_length rest fr lvl]
      rfl
end

theorem nodeCntL_zero (cs : List Column) : nodeCntL cs 0 = leafCountL cs := by
  induction cs with
  | nil => rfl
  | cons c rest ih =>
      rw [nodeCntL_cons, nodeCnt_zero, ih]
      rfl

mutual
theorem specRow_colspan_sum (c : Column) (fr : Bool) (lvl d : Nat) :
    ((specRow c fr lvl d).map HeaderCell.colspan).sum = nodeCnt c d := by
  cases d with
  | zero =>
      rw [specRow_zero, nodeCnt_zero]
      simp [hdrOf]
  | succ d' =>
      cases c with
      | mk k t i f ch =>
          rw [specRow_succ, nodeCnt_succ]
          exact specRowL_colspan_sum ch (fr || f) (lvl + 1) d'
theorem specRowL_colspan_sum (cs : List Column) (fr : Bool) (lvl d : Nat) :
    ((specRowL cs fr lvl d).map HeaderCell.colspan).sum = nodeCntL cs d := by
  cases cs with
  | nil => rfl
  | cons c rest =>
      rw [specRowL_cons, List.map_append, List.sum_append, specRow_colspan_sum c fr lvl d,
        specRowL_colspan_sum rest fr lvl d, nodeCntL_cons]
end

mutual
theorem nodeCnt_step (c : Column) (d : Nat) :
    nodeCnt c d = leafCellCnt c d + nodeCnt c (d + 1) := by
  cases c with
  | mk k t i f ch =>
      cases d with
      | zero =>
          cases ch with
          | nil =>
              rw [nodeCnt_zero, leafCount_leaf, leafCellCnt_leaf, nodeCnt_succ]
              rfl
          | cons c0 cs =>
              rw [nodeCnt_zero, leafCount_node, leafCellCnt_node, nodeCnt_succ, nodeCntL_zero]
              omega
      | succ d' =>
          rw [nodeCnt_succ, leafCellCnt_succ, nodeCnt_succ]
          exact nodeCntL_step ch d'
theorem nodeCntL_step (cs : List Column) (d : Nat) :
    nodeCntL cs d = leafCellCntL cs d + nodeCntL cs (d + 1) := by
  cases cs with
  | nil => rfl
  | cons c rest =>
      rw [nodeCntL_cons, nodeCntL_cons, leafCellCntL_cons,
        nodeCnt_step c d, nodeCntL_step rest d]
      omega
end

theorem cover_telescope (cs : List Column) (L : Nat) :
    ((List.range L).map (fun d => leafCellCntL cs d)).sum + nodeCntL cs L
      = nodeCntL cs 0 := by
  induction L with
  | zero => simp
  | succ L' ih =>
      rw [List.range_succ, List.map_append, List.sum_append]
      have hstep := nodeCntL_step cs L'
      simp only [List.map_cons, List.map_nil, List.sum_cons, List.sum_nil]
      omega

/-! ### Contribution of one row to the rowspan-aware cover -/

mutual
theorem contrib_lt (c : Column) (fr : Bool) (lvl dep p L H : Nat)
    (hp : p < L) (hL : L < H) :
    (((specRow c fr lvl dep).map (finalizeCell H p)).map
        (fun h => if L < p + h.rowspan then h.colspan else 0)).sum
      = leafCellCnt c dep := by
  cases dep with
  | zero =>
      cases c with
      | mk k t i f ch =>
          cases ch with
          | nil =>
              rw [specRow_zero, leafCellCnt_leaf]
              simp only [List.map_cons, List.map_nil, List.sum_cons, List.sum_nil]
              rw [show finalizeCell H p (hdrOf lvl fr (.mk k t i f []))
                  = { hdrOf lvl fr (.mk k t i f []) with rowspan := H - p } from by
                unfold finalizeCell
                rw [if_pos (by rw [hdrOf_children]; rfl)]]
              rw [show ({ hdrOf lvl fr (.mk k t i f []) with rowspan := H - p } : HeaderCell).rowspan = H - p from rfl]
              rw [if_pos (by omega : L < p + (H - p))]
              simp [hdrOf, leafCount_leaf]
          | cons c0 cs =>
              rw [specRow_zero, leafCellCnt_node]
              simp only [List.map_cons, List.map_nil, List.sum_cons, List.sum_nil]
              rw [show finalizeCell H p (hdrOf lvl fr (.mk k t i f (c0 :: cs)))
                  = hdrOf lvl fr (.mk k t i f (c0 :: cs)) from by
                unfold finalizeCell
                rw [if_neg (by rw [hdrOf_children]; simp)]]
              rw [show (hdrOf lvl fr (.mk k t i f (c0 :: cs))).rowspan = 1 from rfl]
              rw [if_neg (by omega)]
              rfl
  | succ dep' =>
      cases c with
      | mk k t i f ch =>
          rw [specRow_succ, leafCellCnt_succ]
          exact contribL_lt ch (fr || f) (lvl + 1) dep' p L H hp hL
theorem contribL_lt (cs : List Column) (fr : Bool) (lvl dep p L H : Nat)
    (hp : p < L) (hL : L < H) :
    (((specRowL cs fr lvl dep).map (finalizeCell H p)).map
        (fun h => if L < p + h.rowspan then h.colspan else 0)).sum
      = leafCellCntL cs dep := by
  cases cs with
  | nil => rfl
  | cons c rest =>
      rw [specRowL_cons, List.map_append, List.map_append, List.sum_append,
        contrib_lt c fr lvl dep p L H hp hL, contribL_lt rest fr lvl dep p L H hp hL,
        leafCellCntL_cons]
end

mutual
theorem contrib_eq (c : Column) (fr : Bool) (lvl dep L H : Nat) (hL : L < H) :
    (((specRow c fr lvl dep).map (finalizeCell H L)).map
        (fun h => if L < L + h.rowspan then h.colspan else 0)).sum
      = nodeCnt c dep := by
  cases dep with
  | zero =>
      cases c with
      | mk k t i f ch =>
          cases ch with
          | nil =>
              rw [specRow_zero, nodeCnt_zero]
              simp only [List.map_cons, List.map_nil, List.sum_cons, List.sum_nil]
              rw [show finalizeCell H L (hdrOf lvl fr (.mk k t i f []))
                  = { hdrOf lvl fr (.mk k t i f []) with rowspan := H - L } from by
                unfold finalizeCell
                rw [if_pos (by rw [hdrOf_children]; rfl)]]
              rw [show ({ hdrOf lvl fr (.mk k t i f []) with rowspan := H - L } : HeaderCell).rowspan = H - L from rfl]
              rw [if_pos (by omega : L < L + (H - L))]
              simp [hdrOf]
          | cons c0 cs =>
              rw [specRow_zero, nodeCnt_zero]
              simp only [List.map_cons, List.map_nil, List.sum_cons, List.sum_nil]
              rw [show finalizeCell H L (hdrOf lvl fr (.mk k t i f (c0 :: cs)))
                  = hdrOf lvl fr (.mk k t i f (c0 :: cs)) from by
                unfold finalizeCell
                rw [if_neg (by rw [hdrOf_children]; simp)]]
              rw [show (hdrOf lvl fr (.mk k t i f (c0 :: cs))).rowspan = 1 from rfl]
              rw [if_pos (by omega)]
              simp [hdrOf]
  | succ dep' =>
      cases c with
      | mk k t i f ch =>
          rw [specRow_succ, nodeCnt_succ]
          exact contribL_eq ch (fr || f) (lvl + 1) dep' L H hL
theorem contribL_eq (cs : List Column) (fr : Bool) (lvl dep L H : Nat) (hL : L < H) :
    (((specRowL cs fr lvl dep).map (finalizeCell H L)).map
        (fun h => if L < L + h.rowspan then h.colspan else 0)).sum
      = nodeCntL cs dep := by
  cases cs with
  | nil => rfl
  | cons c rest =>
      rw [specRowL_cons, List.map_append, List.map_append, List.sum_append,
        contrib_eq c fr lvl dep L H hL, contribL_eq rest fr lvl dep L H hL,
        nodeCntL_cons]
end

/-! ### Claim C1: tiling -/

theorem colKeysL_cons (c : Column) (rest : List Column) :
    colKeysL (c :: rest) = colKeys c ++ colKeysL rest := by
  simp [colKeysL]

theorem colKeysL_eq_flatMap (cs : List Column) : colKeysL cs = cs.flatMap colKeys := by
  induction cs with
  | nil => rfl
  | cons c rest ih => rw [colKeysL_cons, ih, List.flatMap_cons]

/-- C1 (amended): for every column forest with pairwise distinct column
keys, the computed structure tiles a rectangle once rowspans are accounted
for: the level-0 colspans sum to the number of leaf columns, and at every
level `L` of `headerRows`, the total colspan of the cells covering row `L`
(cells at rows `d ≤ L` whose rowspan extends past `L`) equals the number
of leaf columns.  (The plain per-level colspan sum equals the leaf count at
level 0 only; deeper rows are partly covered by rowspans from above.) -/
theorem claimC1_tiling (cols : List Column) (hnd : (colKeysL cols).Nodup) :
    ((getRow ((calculateHeaderStructure cols).1) 0).map HeaderCell.colspan).sum
      = (calculateHeaderStructure cols).2.length ∧
    ∀ L, L < (calculateHeaderStructure cols).1.length →
      coverAt ((calculateHeaderStructure cols).1) L
        = (calculateHeaderStructure cols).2.length := by
  have hperm : (colKeysL (jsStableSort colIndexLe cols)).Nodup := by
    rw [colKeysL_eq_flatMap]
    rw [colKeysL_eq_flatMap] at hnd
    exact ((List.Perm.flatMap_right colKeys (jsStableSort_perm colIndexLe cols)).symm).nodup hnd
  have hspec := (traverseList_spec (jsStableSort colIndexLe cols) 0 false ⟨[], []⟩ hperm
    (fun ℓ h hm => absurd hm (by simp [getRow]))).1
  have hrowd : ∀ d,
      getRow (traverseList (jsStableSort colIndexLe cols) 0 false ⟨[], []⟩).headerRows d
        = specRowL (jsStableSort colIndexLe cols) false 0 d := by
    intro d
    have h := hspec d
    rw [Nat.zero_add] at h
    rw [h]
    rfl
  have hcalc1 : (calculateHeaderStructure cols).1
      = applyRowspans
          (traverseList (jsStableSort colIndexLe cols) 0 false ⟨[], []⟩).headerRows.length 0
          (traverseList (jsStableSort colIndexLe cols) 0 false ⟨[], []⟩).headerRows := rfl
  set rows0 := (traverseList (jsStableSort colIndexLe cols) 0 false ⟨[], []⟩).headerRows with hr0
  set H := rows0.length with hH
  have hleavesLen : (calculateHeaderStructure cols).2.length
      = nodeCntL (jsStableSort colIndexLe cols) 0 := by
    have hlv : (calculateHeaderStructure cols).2
        = ((traverseList (jsStableSort colIndexLe cols) 0 false ⟨[], []⟩).leafColumns).map
            (fun h => finalizeCell H h.level h) := rfl
    rw [hlv, List.length_map, traverseList_leaves]
    rw [show (⟨[], []⟩ : HState).leafColumns
        ++ specLeavesL (jsStableSort colIndexLe cols) false 0
        = specLeavesL (jsStableSort colIndexLe cols) false 0 from rfl]
    rw [specLeavesL_length, nodeCntL_zero]
  constructor
  · rw [hcalc1, applyRowspans_getRow, hrowd 0, List.map_map]
    rw [show (HeaderCell.colspan ∘ finalizeCell H (0 + 0)) = HeaderCell.colspan from
      funext (fun h => finalizeCell_colspan H (0 + 0) h)]
    rw [specRowL_colspan_sum, hleavesLen]
  · intro L hL
    have hLH : L < H := by
      rw [hcalc1, applyRowspans_length] at hL
      exact hL
    have hrowfin : ∀ d, getRow ((calculateHeaderStructure cols).1) d
        = (specRowL (jsStableSort colIndexLe cols) false 0 d).map (finalizeCell H d) := by
      intro d
      rw [hcalc1, applyRowspans_getRow, hrowd d, Nat.zero_add]
    have hsum1 : ((List.range L).map (fun d =>
        ((getRow ((calculateHeaderStructure cols).1) d).map
          (fun h => if L < d + h.rowspan then h.colspan else 0)).sum)).sum
        = ((List.range L).map (fun d =>
            leafCellCntL (jsStableSort colIndexLe cols) d)).sum := by
      apply congrArg List.sum
      apply List.map_congr_left
      intro d hd
      rw [hrowfin d]
      exact contribL_lt (jsStableSort colIndexLe cols) false 0 d d L H
        (List.mem_range.1 hd) hLH
    have hsum2 : ((getRow ((calculateHeaderStructure cols).1) L).map
          (fun h => if L < L + h.rowspan then h.colspan else 0)).sum
        = nodeCntL (jsStableSort colIndexLe cols) L := by
      rw [hrowfin L]
      exact contribL_eq (jsStableSort colIndexLe cols) false 0 L L H hLH
    show ((List.range (L + 1)).map (fun d =>
        ((getRow ((calculateHeaderStructure cols).1) d).map
          (fun h => if L < d + h.rowspan then h.colspan else 0)).sum)).sum = _
    rw [List.range_succ, List.map_append, List.sum_append, hsum1]
    simp only [List.map_cons, List.map_nil, List.sum_cons, List.sum_nil]
    rw [hsum2, hleavesLen]
    have := cover_telescope (jsStableSort colIndexLe cols) L
    omega

/-- The spec's own scenario forest: a leaf `a` next to a group `b` with
children `c`, `d`. -/
def exColsC1 : List Column :=
  [.mk "a" "A" 0 false [],
   .mk "b" "B" 1 false [.mk "c" "C" 0 false [], .mk "d" "D" 1 false []]]

/-- Counterexample for C1 as stated: in the scenario forest the cells at
level 1 are just `c` and `d` with colspan sum 2, while there are 3 leaf
columns — the plain per-level colspan sum does not equal the leaf count
for levels below 0 (row `a`, rowspan 2, covers the missing column). -/
theorem claimC1_counterexample :
    ((getRow ((calculateHeaderStructure exColsC1).1) 1).map HeaderCell.colspan).sum = 2 ∧
    (calculateHeaderStructure exColsC1).2.length = 3 ∧ (2 : Nat) ≠ 3 :=
  ⟨by decide, by decide, by decide⟩

/-- Witness for C1: the amended tiling applied to the scenario forest
(whose keys `a b c d` are pairwise distinct). -/
theorem claimC1_tiling_witness :
    ((getRow ((calculateHeaderStructure exColsC1).1) 0).map HeaderCell.colspan).sum
      = (calculateHeaderStructure exColsC1).2.length :=
  (claimC1_tiling exColsC1 (by decide)).1

/-! ## `Renderer.reconcile` (Renderer.js lines 339-407)

The table body is a list of `<tr>` rows; every row written by this code
path carries a `key` attribute.  A row's DOM identity is recorded as
`nodeId`.  Under the distinct-key hypotheses of the claims (previous keys
pairwise distinct, new composite keys pairwise distinct) a live row is
uniquely identified by its key, so the model performs the map lookup, the
`currentRowAtIndex !== tr` identity test, the `insertBefore` move and the
cleanup removal by key. -/

/-- A `<tr>` of the table body. -/
structure BodyRow : Type where
  nodeId : Nat
  key : String
  html : String
deriving DecidableEq, Repr

/-- `keyField.split(",")`, character-list level. -/
def splitCommaChars : List Char → List (List Char)
  | [] => [[]]
  | c :: rest =>
      if c = ',' then [] :: splitCommaChars rest
      else
        match splitCommaChars rest with
        | [] => [c] :: []
        | g :: gs => (c :: g) :: gs

/-- The composite row key:
`let rowKey = ""; keyField.split(",").forEach(k => rowKey += rowData[k])`. -/
def compositeKey (keyField : String) (r : Record) : String :=
  ((splitCommaChars keyField.data).map
    (fun k => jsToString (jsGet r (String.mk k)))).foldl (fun a b => a ++ b) ""

/-- `tbody.insertBefore(tr, ref)` with `tr` already detached: place `tr`
immediately before the row carrying the reference's key.  In `reconcile`'s
flow the reference row is always present; the fallback append is
unreachable. -/
def insertBeforeKey (tr : BodyRow) (refKey : String) : List BodyRow → List BodyRow
  | [] => [tr]
  | r :: rest =>
      if r.key == refKey then tr :: r :: rest else r :: insertBeforeKey tr refKey rest

/-- One iteration of the `newData.forEach` body of `reconcile`:
update-and-move an existing row, or create a fresh row at index `idx`.
`existingKeys` are the keys of the `existingRows` map captured before the
loop; `fid` is the DOM identity of a freshly created `<tr>`. -/
def processRecord (existingKeys : List String) (tb : List BodyRow) (idx fid : Nat)
    (rowKey newHtml : String) : List BodyRow :=
  if existingKeys.contains rowKey then
    match tb.find? (fun r => r.key == rowKey) with
    | none => tb
    | some tr0 =>
        let tr : BodyRow := { tr0 with html := newHtml }
        let tb1 := tb.map (fun r => if r.key == rowKey then tr else r)
        match tb1[idx]? with
        | none => (tb1.filter (fun r => !(r.key == rowKey))) ++ [tr]
        | some ref =>
            if ref.key == rowKey then tb1
            else insertBeforeKey tr ref.key (tb1.filter (fun r => !(r.key == rowKey)))
  else
    let tr : BodyRow := ⟨fid, rowKey, newHtml⟩
    if idx < tb.length then tb.insertIdx idx tr else tb ++ [tr]

/-- The `newData.forEach((rowData, index) => ...)` loop. -/
def reconcileLoop (existingKeys : List String) (kf : String) (rh : Record → String) :
    List Record → Nat → Nat → List BodyRow → List BodyRow
  | [], _, _, tb => tb
  | r :: rest, idx, fid, tb =>
      reconcileLoop existingKeys kf rh rest (idx + 1) (fid + 1)
        (processRecord existingKeys tb idx fid (compositeKey kf r) (rh r))

/-- `Renderer.reconcile(newData)`: the keyed diff followed by the cleanup
that removes every previously tracked row whose key was not processed.
`rh` is `_generateRowInnerHtml` with the grid's config and leaf columns
closed over; `fid0` supplies fresh DOM identities. -/
def reconcile (kf : String) (rh : Record → String) (newData : List Record)
    (tbody : List BodyRow) (fid0 : Nat) : List BodyRow :=
  let existingKeys := tbody.map (fun r => r.key)
  let processedKeys := newData.map (compositeKey kf)
  let tb := reconcileLoop existingKeys kf rh newData 0 fid0 tbody
  tb.filter (fun tr => !(existingKeys.contains tr.key) || processedKeys.contains tr.key)

/-- The row that should occupy position `i` after reconciliation: an
existing row with the same composite key, reused (same DOM identity) with
refreshed html; otherwise a freshly created row. -/
def expectedRow (tbody : List BodyRow) (fid0 : Nat) (kf : String) (rh : Record → String)
    (i : Nat) (r : Record) : BodyRow :=
  match tbody.find? (fun row => row.key == compositeKey kf r) with
  | some tr => { tr with html := rh r }
  | none => ⟨fid0 + i, compositeKey kf r, rh r⟩

/-- The expected body: one row per new record, in `newData` order. -/
def expectedRows (tbody : List BodyRow) (fid0 : Nat) (kf : String) (rh : Record → String) :
    List Record → Nat → List BodyRow
  | [], _ => []
  | r :: rest, i =>
      expectedRow tbody fid0 kf rh i r :: expectedRows tbody fid0 kf rh rest (i + 1)

/-! ### Helper lemmas for the reconciliation proof -/

theorem strContains_iff (l : List String) (a : String) : l.contains a = true ↔ a ∈ l :=
  List.elem_iff

theorem strContains_false_iff (l : List String) (a : String) :
    l.contains a = false ↔ a ∉ l := by
  rw [← strContains_iff l a]
  cases l.contains a <;> simp

theorem strContains_append (l1 l2 : List String) (a : String) :
    (l1 ++ l2).contains a = (l1.contains a || l2.contains a) := by
  induction l1 with
  | nil => simp
  | cons x xs ih => simp [List.contains_cons, ih, Bool.or_assoc]

theorem row_eq_of_key_eq (l : List BodyRow) (hnd : (l.map BodyRow.key).Nodup)
    (a b : BodyRow) (ha : a ∈ l) (hb : b ∈ l) (hk : a.key = b.key) : a = b := by
  induction l with
  | nil => simp at ha
  | cons t rest ih =>
      simp only [List.map_cons] at hnd
      have hnk := (List.nodup_cons.1 hnd).1
      have hnd' := (List.nodup_cons.1 hnd).2
      rcases List.mem_cons.1 ha with ha1 | ha1 <;> rcases List.mem_cons.1 hb with hb1 | hb1
      · rw [ha1, hb1]
      · exfalso
        apply hnk
        rw [← ha1, hk]
        exact List.mem_map.2 ⟨b, hb1, rfl⟩
      · exfalso
        apply hnk
        rw [← hb1, ← hk]
        exact List.mem_map.2 ⟨a, ha1, rfl⟩
      · exact ih hnd' ha1 hb1

theorem find?_key_filter (l : List BodyRow) (p : BodyRow → Bool) (k : String)
    (hp : ∀ tr ∈ l, tr.key = k → p tr = true) :
    (l.filter p).find? (fun r => r.key == k) = l.find? (fun r => r.key == k) := by
  induction l with
  | nil => rfl
  | cons t rest ih =>
      by_cases hpt : p t = true
      · rw [List.filter_cons_of_pos hpt]
        cases hbeq : (t.key == k)
        · simp only [List.find?_cons, hbeq]
          exact ih (fun tr htr => hp tr (List.mem_cons_of_mem t htr))
        · simp [List.find?_cons, hbeq]
      · have hne : t.key ≠ k := fun he => hpt (hp t (List.mem_cons_self t rest) he)
        have hbeq : (t.key == k) = false := by simpa using hne
        rw [List.filter_cons_of_neg hpt]
        rw [ih (fun tr htr => hp tr (List.mem_cons_of_mem t htr))]
        simp [List.find?_cons, hbeq]

theorem map_update_id (l : List BodyRow) (k : String) (tr : BodyRow)
    (h : ∀ r ∈ l, r.key ≠ k) :
    l.map (fun r => if r.key == k then tr else r) = l := by
  induction l with
  | nil => rfl
  | cons t rest ih =>
      have hbeq : (t.key == k) = false := by simpa using h t (List.mem_cons_self t rest)
      simp only [List.map_cons, hbeq, Bool.false_eq_true, if_false]
      rw [ih (fun r hr => h r (List.mem_cons_of_mem t hr))]

theorem filter_map_update (l : List BodyRow) (k : String) (tr : BodyRow) (htr : tr.key = k) :
    (l.map (fun r => if r.key == k then tr else r)).filter (fun r => !(r.key == k))
      = l.filter (fun r => !(r.key == k)) := by
  induction l with
  | nil => rfl
  | cons t rest ih =>
      by_cases ht : t.key = k
      · have hbeq : (t.key == k) = true := by simpa using ht
        have htrk : (tr.key == k) = true := by simpa using htr
        simp only [List.map_cons, hbeq, if_true]
        rw [List.filter_cons_of_neg (by simp [htrk]), List.filter_cons_of_neg (by simp [hbeq])]
        exact ih
      · have hbeq : (t.key == k) = false := by simpa using ht
        simp only [List.map_cons, hbeq, Bool.false_eq_true, if_false]
        rw [List.filter_cons_of_pos (by simp [hbeq]), List.filter_cons_of_pos (by simp [hbeq])]
        rw [ih]

theorem insertBeforeKey_append (tr : BodyRow) (refKey : String) (l1 l2 : List BodyRow)
    (h : ∀ r ∈ l1, r.key ≠ refKey) :
    insertBeforeKey tr refKey (l1 ++ l2) = l1 ++ insertBeforeKey tr refKey l2 := by
  induction l1 with
  | nil => rfl
  | cons t rest ih =>
      have hbeq : (t.key == refKey) = false := by simpa using h t (List.mem_cons_self t rest)
      simp only [List.cons_append, insertBeforeKey, hbeq, Bool.false_eq_true, if_false,
        List.append_eq]
      rw [ih (fun r hr => h r (List.mem_cons_of_mem t hr))]

theorem insertIdx_append_self (l1 l2 : List BodyRow) (x : BodyRow) :
    (l1 ++ l2).insertIdx l1.length x = l1 ++ x :: l2 := by
  induction l1 with
  | nil => rfl
  | cons t rest ih =>
      show (t :: (rest ++ l2)).insertIdx (rest.length + 1) x = _
      rw [List.insertIdx_succ_cons, ih]
      rfl

theorem expectedRow_key (tbody : List BodyRow) (fid0 : Nat) (kf : String)
    (rh : Record → String) (i : Nat) (r : Record) :
    (expectedRow tbody fid0 kf rh i r).key = compositeKey kf r := by
  unfold expectedRow
  cases hf : tbody.find? (fun row => row.key == compositeKey kf r) with
  | none => rfl
  | some tr =>
      have := List.find?_some hf
      simpa using this

theorem expectedRows_map_key (tbody : List BodyRow) (fid0 : Nat) (kf : String)
    (rh : Record → String) (rem : List Record) :
    ∀ i, (expectedRows tbody fid0 kf rh rem i).map BodyRow.key
      = rem.map (compositeKey kf) := by
  induction rem with
  | nil => intro i; rfl
  | cons r rest ih =>
      intro i
      show (expectedRow tbody fid0 kf rh i r).key
          :: (expectedRows tbody fid0 kf rh rest (i + 1)).map BodyRow.key = _
      rw [expectedRow_key, ih (i + 1)]
      rfl

theorem processRecord_step (tbody : List BodyRow) (hnd : (tbody.map BodyRow.key).Nodup)
    (procd : List String) (done : List BodyRow) (k h : String) (fid : Nat)
    (hkp : k ∉ procd) (hdone : done.map BodyRow.key = procd) :
    processRecord (tbody.map (fun r => r.key))
        (done ++ tbody.filter (fun tr => !(procd.contains tr.key))) done.length fid k h
      = (done ++ [(match tbody.find? (fun r => r.key == k) with
          | some tr0 => { tr0 with html := h }
          | none => (⟨fid, k, h⟩ : BodyRow))])
        ++ tbody.filter (fun tr => !((procd ++ [k]).contains tr.key)) := by
  have hdonek : ∀ row ∈ done, row.key ≠ k := by
    intro row hrow he
    apply hkp
    rw [← he, ← hdone]
    exact List.mem_map.2 ⟨row, hrow, rfl⟩
  have hfilter2 : tbody.filter (fun tr => !((procd ++ [k]).contains tr.key))
      = (tbody.filter (fun tr => !(procd.contains tr.key))).filter
          (fun r => !(r.key == k)) := by
    rw [List.filter_filter]
    apply List.filter_congr
    intro a _
    rw [strContains_append]
    simp only [List.contains_cons, List.contains_nil, Bool.or_false]
    cases hc1 : procd.contains a.key <;> cases hc2 : (a.key == k) <;> rfl
  have hmapfun : tbody.map (fun r => r.key) = tbody.map BodyRow.key := rfl
  rw [hfilter2]
  by_cases hex : k ∈ tbody.map BodyRow.key
  · -- the key is tracked: update, then move
    have hcont : (tbody.map (fun r => r.key)).contains k = true := by
      rw [hmapfun]
      exact (strContains_iff _ _).2 hex
    have hsome : (tbody.find? (fun r => r.key == k)).isSome := by
      rw [List.find?_isSome]
      rcases List.mem_map.1 hex with ⟨row, hrow, hkey⟩
      exact ⟨row, hrow, by simpa using hkey⟩
    obtain ⟨tr0, htr0⟩ := Option.isSome_iff_exists.1 hsome
    have htr0k : tr0.key = k := by simpa using List.find?_some htr0
    have htr0mem : tr0 ∈ tbody := List.mem_of_find?_eq_some htr0
    have htr0p : procd.contains tr0.key = false :=
      (strContains_false_iff _ _).2 (htr0k ▸ hkp)
    have htr0REST : tr0 ∈ tbody.filter (fun tr => !(procd.contains tr.key)) :=
      List.mem_filter.2 ⟨htr0mem, by rw [htr0p]; rfl⟩
    have hndREST : ((tbody.filter (fun tr => !(procd.contains tr.key))).map
        BodyRow.key).Nodup :=
      ((List.filter_sublist tbody).map BodyRow.key).nodup hnd
    have htbfind : (done ++ tbody.filter (fun tr => !(procd.contains tr.key))).find?
        (fun r => r.key == k) = some tr0 := by
      rw [List.find?_append,
        List.find?_eq_none.2 (fun x hx hbeq => hdonek x hx (by simpa using hbeq)),
        Option.none_or]
      rw [find?_key_filter tbody _ k (fun tr _ he => by
        rw [(strContains_false_iff _ _).2 (he ▸ hkp)]
        rfl)]
      exact htr0
    rw [htr0]
    unfold processRecord
    rw [if_pos hcont, htbfind]
    simp only []
    rw [List.map_append, map_update_id done k _ hdonek]
    cases hREST : tbody.filter (fun tr => !(procd.contains tr.key)) with
    | nil => rw [hREST] at htr0REST; simp at htr0REST
    | cons t0 rest0 =>
        rw [hREST] at htr0REST hndREST
        have hidx : (done ++ (t0 :: rest0).map
            (fun r => if r.key == k then { tr0 with html := h } else r))[done.length]?
            = some (if t0.key == k then { tr0 with html := h } else t0) := by
          rw [List.getElem?_append_right (le_refl done.length), Nat.sub_self]
          simp
        rw [hidx]
        by_cases ht0 : t0.key = k
        · -- the row is already at the correct position: no move
          have hb : (t0.key == k) = true := by simpa using ht0
          have hni : ∀ x ∈ rest0, ¬x.key = t0.key := by
            have hh := hndREST
            simp at hh
            exact hh.1
          have hrest0 : ∀ rr ∈ rest0, rr.key ≠ k := by
            intro rr hrr he
            exact hni rr hrr (by rw [he, ← ht0])
          have hb2 : (({ tr0 with html := h } : BodyRow).key == k) = true := by
            simpa using htr0k
          rw [if_pos hb]
          simp only [hb2, if_true]
          rw [List.map_cons, if_pos hb, map_update_id rest0 k _ hrest0]
          rw [List.filter_cons_of_neg (by simp [hb]), List.filter_eq_self.2
            (fun a ha => by simpa using hrest0 a ha)]
          simp [List.append_assoc]
        · -- the row must move to the front of the remainder
          have hb : (t0.key == k) = false := by simpa using ht0
          have ht0mem : t0 ∈ tbody :=
            (List.mem_filter.1 (hREST ▸ List.mem_cons_self t0 rest0)).1
          have ht0nproc : procd.contains t0.key = false := by
            have := (List.mem_filter.1 (hREST ▸ List.mem_cons_self t0 rest0)).2
            cases hc : procd.contains t0.key
            · rfl
            · rw [hc] at this; simp at this
          have hdonet0 : ∀ r ∈ done, r.key ≠ t0.key := by
            intro r hr he
            have : t0.key ∈ procd := by
              rw [← he, ← hdone]
              exact List.mem_map.2 ⟨r, hr, rfl⟩
            rw [(strContains_iff procd t0.key).2 this] at ht0nproc
            exact Bool.noConfusion ht0nproc
          rw [if_neg (by simp [hb])]
          simp only [hb, Bool.false_eq_true, if_false]
          rw [List.filter_append, List.filter_eq_self.2
            (fun a ha => by simpa using hdonek a ha)]
          rw [filter_map_update (t0 :: rest0) k { tr0 with html := h } (by simpa using htr0k)]
          rw [List.filter_cons_of_pos (by simp [hb])]
          rw [insertBeforeKey_append _ _ done _ hdonet0]
          show done ++ insertBeforeKey { tr0 with html := h } t0.key
              (t0 :: rest0.filter (fun r => !(r.key == k)))
            = (done ++ [{ tr0 with html := h }]) ++ t0 :: rest0.filter
                (fun r => !(r.key == k))
          unfold insertBeforeKey
          rw [if_pos (by simp)]
          simp [List.append_assoc]
  · -- fresh key: a new row is inserted at position done.length
    have hcontf : (tbody.map (fun r => r.key)).contains k = false := by
      rw [hmapfun]
      exact (strContains_false_iff _ _).2 hex
    have hfindnone : tbody.find? (fun r => r.key == k) = none :=
      List.find?_eq_none.2 (fun x hx hbeq => hex (List.mem_map.2 ⟨x, hx, by simpa using hbeq⟩))
    have hRid : (tbody.filter (fun tr => !(procd.contains tr.key))).filter
        (fun r => !(r.key == k))
        = tbody.filter (fun tr => !(procd.contains tr.key)) := by
      apply List.filter_eq_self.2
      intro a ha
      have ham : a ∈ tbody := (List.mem_filter.1 ha).1
      have : a.key ≠ k := fun he => hex (List.mem_map.2 ⟨a, ham, he⟩)
      simpa using this
    rw [hfindnone, hRid]
    unfold processRecord
    rw [if_neg (by rw [hcontf]; simp)]
    simp only []
    cases hREST : tbody.filter (fun tr => !(procd.contains tr.key)) with
    | nil =>
        rw [if_neg (by simp)]
        simp
    | cons t0 rest0 =>
        have hlt : done.length < (done ++ t0 :: rest0).length := by
          simp [List.length_append]
        rw [if_pos hlt, insertIdx_append_self]
        simp [List.append_assoc]

theorem reconcileLoop_spec (tbody : List BodyRow) (hnd : (tbody.map BodyRow.key).Nodup)
    (kf : String) (rh : Record → String) (fid0 : Nat) (rem : List Record) :
    ∀ (procd : List String) (done : List BodyRow),
      (procd ++ rem.map (compositeKey kf)).Nodup →
      done.map BodyRow.key = procd →
      reconcileLoop (tbody.map (fun r => r.key)) kf rh rem done.length
          (fid0 + done.length)
          (done ++ tbody.filter (fun tr => !(procd.contains tr.key)))
        = (done ++ expectedRows tbody fid0 kf rh rem done.length)
          ++ tbody.filter
              (fun tr => !((procd ++ rem.map (compositeKey kf)).contains tr.key)) := by
  induction rem with
  | nil =>
      intro procd done hnodup hdone
      show done ++ tbody.filter (fun tr => !(procd.contains tr.key)) = _
      simp [expectedRows]
  | cons r rest ih =>
      intro procd done hnodup hdone
      have hkp : compositeKey kf r ∉ procd := by
        rcases List.nodup_append.1 hnodup with ⟨h1, h2, hdisj⟩
        intro hmem
        exact hdisj hmem (by simp)
      show reconcileLoop (tbody.map (fun r => r.key)) kf rh rest (done.length + 1)
          (fid0 + done.length + 1)
          (processRecord (tbody.map (fun r => r.key))
            (done ++ tbody.filter (fun tr => !(procd.contains tr.key))) done.length
            (fid0 + done.length) (compositeKey kf r) (rh r)) = _
      rw [processRecord_step tbody hnd procd done (compositeKey kf r) (rh r)
        (fid0 + done.length) hkp hdone]
      have hfold : (match tbody.find? (fun r2 => r2.key == compositeKey kf r) with
          | some tr0 => { tr0 with html := rh r }
          | none => (⟨fid0 + done.length, compositeKey kf r, rh r⟩ : BodyRow))
          = expectedRow tbody fid0 kf rh done.length r := rfl
      rw [hfold]
      have ih' := ih (procd ++ [compositeKey kf r])
        (done ++ [expectedRow tbody fid0 kf rh done.length r])
        (by rw [List.append_assoc]; exact hnodup)
        (by rw [List.map_append, hdone]; simp [expectedRow_key])
      have hlen : (done ++ [expectedRow tbody fid0 kf rh done.length r]).length
          = done.length + 1 := by simp
      rw [hlen] at ih'
      rw [← Nat.add_assoc] at ih'
      rw [ih']
      have hpred : (procd ++ [compositeKey kf r]) ++ rest.map (compositeKey kf)
          = procd ++ (r :: rest).map (compositeKey kf) := by simp
      rw [hpred]
      show _ = (done ++ (expectedRow tbody fid0 kf rh done.length r
          :: expectedRows tbody fid0 kf rh rest (done.length + 1)))
        ++ tbody.filter (fun tr => !((procd ++ (r :: rest).map
            (compositeKey kf)).contains tr.key))
      simp [List.append_assoc]

/-- C2: for a previously rendered body (pairwise distinct row keys) and new
data with pairwise distinct composite keys, `reconcile` produces exactly the
expected rows in `newData` order: each record's row reuses the existing DOM
node with a matching composite key (refreshed html) or is a fresh node at
that index, the key sequence of the body equals the composite-key sequence
of `newData`, and every previously tracked row whose key does not occur in
`newData` is removed. -/
theorem claimC2_reconcile_order (kf : String) (rh : Record → String)
    (newData : List Record) (tbody : List BodyRow) (fid0 : Nat)
    (hnd : (tbody.map BodyRow.key).Nodup)
    (hnd2 : (newData.map (compositeKey kf)).Nodup) :
    reconcile kf rh newData tbody fid0 = expectedRows tbody fid0 kf rh newData 0
      ∧ (reconcile kf rh newData tbody fid0).map BodyRow.key
          = newData.map (compositeKey kf)
      ∧ ∀ tr ∈ tbody, tr.key ∉ newData.map (compositeKey kf) →
          tr ∉ reconcile kf rh newData tbody fid0 := by
  have hmain : reconcile kf rh newData tbody fid0
      = expectedRows tbody fid0 kf rh newData 0 := by
    have hloop := reconcileLoop_spec tbody hnd kf rh fid0 newData [] []
      (by simpa using hnd2) rfl
    have h0 : tbody.filter (fun tr => !(([] : List String).contains tr.key)) = tbody := by
      simp
    simp only [List.nil_append, List.length_nil, Nat.add_zero, h0] at hloop
    show (reconcileLoop (tbody.map (fun r => r.key)) kf rh newData 0 fid0 tbody).filter
        (fun tr => !((tbody.map (fun r => r.key)).contains tr.key)
          || (newData.map (compositeKey kf)).contains tr.key)
      = expectedRows tbody fid0 kf rh newData 0
    rw [hloop, List.filter_append]
    have hkeep : (expectedRows tbody fid0 kf rh newData 0).filter
        (fun tr => !((tbody.map (fun r => r.key)).contains tr.key)
          || (newData.map (compositeKey kf)).contains tr.key)
        = expectedRows tbody fid0 kf rh newData 0 := by
      apply List.filter_eq_self.2
      intro e he
      have hek : e.key ∈ newData.map (compositeKey kf) := by
        rw [← expectedRows_map_key tbody fid0 kf rh newData 0]
        exact List.mem_map.2 ⟨e, he, rfl⟩
      rw [(strContains_iff _ _).2 hek]
      simp
    have hdrop : (tbody.filter
          (fun tr => !((newData.map (compositeKey kf)).contains tr.key))).filter
        (fun tr => !((tbody.map (fun r => r.key)).contains tr.key)
          || (newData.map (compositeKey kf)).contains tr.key) = [] := by
      apply List.filter_eq_nil_iff.2
      intro tr htr
      have htrm : tr ∈ tbody := (List.mem_filter.1 htr).1
      have hnp := (List.mem_filter.1 htr).2
      have h1 : (tbody.map (fun r => r.key)).contains tr.key = true :=
        (strContains_iff _ _).2 (List.mem_map.2 ⟨tr, htrm, rfl⟩)
      have h2 : (newData.map (compositeKey kf)).contains tr.key = false := by
        cases hc : (newData.map (compositeKey kf)).contains tr.key
        · rfl
        · rw [hc] at hnp; simp at hnp
      intro hcontra
      simp only [h1, h2] at hcontra
      exact absurd hcontra (by decide)
    rw [hkeep, hdrop, List.append_nil]
  refine ⟨hmain, by rw [hmain]; exact expectedRows_map_key tbody fid0 kf rh newData 0, ?_⟩
  intro tr _ hkey hmem
  rw [hmain] at hmem
  apply hkey
  rw [← expectedRows_map_key tbody fid0 kf rh newData 0]
  exact List.mem_map.2 ⟨tr, hmem, rfl⟩

/-- The C2 theorem applied to a concrete scene: body rows keyed 1,2,3 and
new data keyed 3,1,4; the result reuses rows 3 and 1 (moved to the front,
html refreshed), creates a fresh row for key 4, and drops row 2. -/
theorem claimC2_reconcile_order_witness :
    reconcile "id" (fun _ => "h")
        [[("id", JSV.vstr "3")], [("id", JSV.vstr "1")], [("id", JSV.vstr "4")]]
        [⟨0, "1", "a"⟩, ⟨1, "2", "b"⟩, ⟨2, "3", "c"⟩] 10
      = expectedRows [⟨0, "1", "a"⟩, ⟨1, "2", "b"⟩, ⟨2, "3", "c"⟩] 10 "id"
          (fun _ => "h")
          [[("id", JSV.vstr "3")], [("id", JSV.vstr "1")], [("id", JSV.vstr "4")]] 0
      ∧ (reconcile "id" (fun _ => "h")
          [[("id", JSV.vstr "3")], [("id", JSV.vstr "1")], [("id", JSV.vstr "4")]]
          [⟨0, "1", "a"⟩, ⟨1, "2", "b"⟩, ⟨2, "3", "c"⟩] 10).map BodyRow.key
        = [[("id", JSV.vstr "3")], [("id", JSV.vstr "1")],
            [("id", JSV.vstr "4")]].map (compositeKey "id")
      ∧ ∀ tr ∈ [(⟨0, "1", "a"⟩ : BodyRow), ⟨1, "2", "b"⟩, ⟨2, "3", "c"⟩],
          tr.key ∉ [[("id", JSV.vstr "3")], [("id", JSV.vstr "1")],
            [("id", JSV.vstr "4")]].map (compositeKey "id") →
          tr ∉ reconcile "id" (fun _ => "h")
            [[("id", JSV.vstr "3")], [("id", JSV.vstr "1")], [("id", JSV.vstr "4")]]
            [⟨0, "1", "a"⟩, ⟨1, "2", "b"⟩, ⟨2, "3", "c"⟩] 10 :=
  claimC2_reconcile_order "id" (fun _ => "h")
    [[("id", JSV.vstr "3")], [("id", JSV.vstr "1")], [("id", JSV.vstr "4")]]
    [⟨0, "1", "a"⟩, ⟨1, "2", "b"⟩, ⟨2, "3", "c"⟩] 10 (by decide) (by decide)

/-- C8 (amended): `reconcile` with an empty data array removes every
existing row and leaves the body EMPTY; no hypotheses are needed because
every existing row's key is in `existingKeys` while no key was processed,
so the cleanup filter drops every row.  The "no data" placeholder belongs
to the full `render` path, which `reconcile` does not execute. -/
theorem claimC8_reconcile_empty (kf : String) (rh : Record → String)
    (tbody : List BodyRow) (fid0 : Nat) :
    reconcile kf rh [] tbody fid0 = [] := by
  show tbody.filter (fun tr => !((tbody.map (fun r => r.key)).contains tr.key)
      || (([] : List Record).map (compositeKey kf)).contains tr.key) = []
  apply List.filter_eq_nil_iff.2
  intro tr htr
  have h1 : (tbody.map (fun r => r.key)).contains tr.key = true :=
    (strContains_iff _ _).2 (List.mem_map.2 ⟨tr, htr, rfl⟩)
  intro hcontra
  simp only [h1, List.map_nil, List.contains_nil] at hcontra
  exact absurd hcontra (by decide)

/-- Empty-data counterexample to the placeholder half of the claim: a body
of one row reconciled with `[]` comes back with zero rows, not a single
placeholder row. -/
theorem claimC8_counterexample :
    (reconcile "id" (fun _ => "") [] [⟨0, "1", "x"⟩] 1).length = 0
      ∧ (reconcile "id" (fun _ => "") [] [⟨0, "1", "x"⟩] 1).length ≠ 1 := by
  decide

end Jagl
